import Mathlib

/-!
# Verification of the hearthd Python integration runner

Shallow embedding of `src/python/runner.py` and the `homeassistant-shim`
helper modules (`helpers/aiohttp_client.py`, `helpers/update_coordinator.py`,
`config_entries.py`, `core.py`), together with proofs about the sandbox
control protocol: newline-delimited JSON framing, the HTTP correlation
table, the update coordinator, and the runner dispatch loop.

Strings from the Python side are embedded as `List Char`; some special
characters are named constants built with `Char.ofNat`.
-/

namespace Hearthd

/-- The double-quote character. -/
def quoteC : Char := Char.ofNat 34
/-- The backslash character. -/
def bslashC : Char := Char.ofNat 92
/-- Newline. -/
def nlC : Char := Char.ofNat 10
/-- Horizontal tab. -/
def tabC : Char := Char.ofNat 9
/-- Carriage return. -/
def crC : Char := Char.ofNat 13
/-- Backspace. -/
def bsC : Char := Char.ofNat 8
/-- Form feed. -/
def ffC : Char := Char.ofNat 12
/-- Left curly brace. -/
def lbraceC : Char := Char.ofNat 123
/-- Right curly brace. -/
def rbraceC : Char := Char.ofNat 125
/-- Single quote (apostrophe), as it appears in Python error messages. -/
def squoteC : Char := Char.ofNat 39

/-- Python `int()` applied to an exact rational: truncation toward zero.
Used to model `int(timeout * 1000)` and `int(update_interval.total_seconds())`. -/
def pyInt (q : ℚ) : Int := if 0 ≤ q then q.floor else -((-q).floor)

/-! ## ClientSession (`homeassistant-shim/homeassistant/helpers/aiohttp_client.py`)

The `_pending_requests` dict maps a request id to an `asyncio.Future`.
A future is either still pending, fulfilled with a response, or cancelled.
-/

/-- The payload of an inbound `http_response` message, as consumed by
`ClientSession.handle_http_response` (`request_id` may be absent). -/
structure ResponseData where
  request_id : Option (List Char)
  status : Int
  body : List Int
  deriving DecidableEq

/-- State of one entry of `ClientSession._pending_requests`. -/
inductive FutureState where
  | pending
  | fulfilled (rd : ResponseData)
  | cancelled
  deriving DecidableEq

/-- The `_pending_requests` correlation table: request id ↦ future state. -/
abbrev PendingTable := List (List Char × FutureState)

/-- `ClientSession.handle_http_response` (aiohttp_client.py lines 69-82):
if the message carries a `request_id` that is in `_pending_requests`, pop the
future and, when it is not yet done, set the response as its result.
Returns the new table and the delivered result (if a waiter was resumed). -/
def handle_http_response (session : PendingTable) (rd : ResponseData) :
    PendingTable × Option ResponseData :=
  match rd.request_id with
  | none => (session, none)
  | some rid =>
    match List.lookup rid session with
    | none => (session, none)
    | some fut =>
      let session' := List.eraseP (fun p => p.1 == rid) session
      match fut with
      | .pending => (session', some rd)
      | _ => (session', none)

/-- Outcome of the `asyncio.wait_for(future, timeout=timeout + 5)` in
`ClientSession._send_request`. -/
inductive WaitOutcome where
  | fulfilled
  | timeout_error
  deriving DecidableEq

/-- Timing/state trace of one `ClientSession._send_request(..., timeout=T)` call
(aiohttp_client.py lines 22-67).  `arrival` is the instant (seconds after the
call) at which the pending future is fulfilled, or `none` if it never is.
The code registers the pending entry, sends an `http_request` message carrying
`timeout_ms = int(T * 1000)`, and then waits on the future with
`asyncio.wait_for(future, timeout=T + 5)`. -/
structure SendRequestRun where
  pending_after_register : PendingTable
  msg_timeout_ms : Int
  outcome : WaitOutcome
  wait_time : ℚ
  pending_final : PendingTable
  deriving DecidableEq

/-- Model of `ClientSession._send_request` (aiohttp_client.py lines 22-67).
On fulfillment the entry has been popped by `handle_http_response`; on
`asyncio.TimeoutError` the `except` branch pops it (line 63). -/
def send_request (pending : PendingTable) (rid : List Char) (T : ℚ)
    (arrival : Option ℚ) : SendRequestRun :=
  let registered : PendingTable := (rid, FutureState.pending) :: pending
  let cleaned := List.eraseP (fun p => p.1 == rid) registered
  match arrival with
  | some t =>
    if t < T + 5 then
      ⟨registered, pyInt (T * 1000), .fulfilled, t, cleaned⟩
    else
      ⟨registered, pyInt (T * 1000), .timeout_error, T + 5, cleaned⟩
  | none => ⟨registered, pyInt (T * 1000), .timeout_error, T + 5, cleaned⟩

/-- `hass.data` as used by `async_get_clientsession`: the cached session (object
identity modelled as a numeric id) and a source of fresh object ids. -/
structure HassData where
  aiohttp_session : Option Nat
  next_id : Nat
  deriving DecidableEq

/-- `async_get_clientsession` (aiohttp_client.py lines 160-165): create the
session on first use and cache it under `hass.data["aiohttp_session"]`;
afterwards always return the cached object. -/
def async_get_clientsession (h : HassData) : HassData × Nat :=
  match h.aiohttp_session with
  | some s => (h, s)
  | none => (⟨some h.next_id, h.next_id + 1⟩, h.next_id)

/-! ## DataUpdateCoordinator (`helpers/update_coordinator.py`) -/

/-- Mutable state of a `DataUpdateCoordinator`: the data snapshot,
`last_update_success`, and registered listener ids (in registration order). -/
structure CoordState (D : Type) where
  data : Option D
  last_update_success : Bool
  listeners : List Nat
  deriving DecidableEq

/-- Result of one invocation of the underlying fetch operation
(`_update_method` / `_async_update_data`). -/
inductive FetchResult (D : Type) where
  | ok (d : D)
  | err (msg : List Char)
  deriving DecidableEq

/-- The `UpdateFailed` exception raised by `async_refresh`: message text plus
the original cause (`raise UpdateFailed(...) from err`). -/
structure UpdateFailedErr where
  message : List Char
  cause : List Char
  deriving DecidableEq

/-- Observable result of one `DataUpdateCoordinator.async_refresh` call. -/
structure RefreshResult (D : Type) where
  state : CoordState D
  notified : List Nat
  raised : Option UpdateFailedErr
  fetch_next : Nat
  deriving DecidableEq

/-- `DataUpdateCoordinator.async_refresh` (update_coordinator.py lines 87-105).
The fetch operation is a stream `fetch` consumed at index `i`; the returned
`fetch_next = i + 1` witnesses that exactly one fetch happens (no internal
retry).  On success the snapshot is replaced and every listener is notified in
registration order; on failure the snapshot is untouched, no listener is
notified, `last_update_success` is cleared and `UpdateFailed` carrying the
coordinator name and the cause is raised. -/
def async_refresh {D : Type} (name : List Char) (st : CoordState D)
    (fetch : Nat → FetchResult D) (i : Nat) : RefreshResult D :=
  match fetch i with
  | .ok d =>
    ⟨{ st with data := some d, last_update_success := true }, st.listeners, none, i + 1⟩
  | .err e =>
    ⟨{ st with last_update_success := false }, [],
      some ⟨"Error fetching ".data ++ name ++ " data".data, e⟩, i + 1⟩

/-- Static configuration of one coordinator: `name`, the generated
`_timer_id`, and `update_interval` in seconds (if configured). -/
structure CoordCfg where
  name : List Char
  timer_id : List Char
  update_interval : Option ℚ
  deriving DecidableEq

/-- The slice of the `HomeAssistant` object that
`async_config_entry_first_refresh` touches.  `coordinators = none` models the
`_coordinators` attribute being absent: `HomeAssistant.__init__` (core.py
lines 89-100) never creates it, and runner.py lines 147-151 only attach
`_reader`, `_writer`, `_send_message` and `_recv_message`. -/
structure HassModel where
  has_send_message : Bool
  coordinators : Option (List (List Char × Nat))
  deriving DecidableEq

/-- The `hass` object as built by `IntegrationRunner.handle_setup_integration`:
`_send_message` is attached, `_coordinators` is never created. -/
def hass_from_runner : HassModel := ⟨true, none⟩

/-- An exception escaping `async_config_entry_first_refresh`. -/
inductive FirstRefreshErr where
  | update_failed (e : UpdateFailedErr)
  | attribute_error (msg : List Char)
  deriving DecidableEq

/-- Observable result of `async_config_entry_first_refresh`. -/
structure FirstRefreshResult (D : Type) where
  coord : CoordState D
  hass : HassModel
  sent : List (List Char × List Char × Int)
  raised : Option FirstRefreshErr
  deriving DecidableEq

/-- Text of the `AttributeError` raised by line 77 of update_coordinator.py
(`self.hass._coordinators[self._timer_id] = self` with no such attribute). -/
def coordinators_attr_error : List Char :=
  "HomeAssistant object has no attribute _coordinators".data

/-- `DataUpdateCoordinator.async_config_entry_first_refresh`
(update_coordinator.py lines 63-85): run one refresh; on success, if an
`update_interval` is configured and `hass` has `_send_message`, first record
the coordinator in `hass._coordinators` (line 77) and then send one
`schedule_update` message carrying `(timer_id, name, interval_seconds)` with
`interval_seconds = int(update_interval.total_seconds())`.  `sent` lists the
`schedule_update` messages actually sent. -/
def async_config_entry_first_refresh {D : Type} (cfg : CoordCfg) (coordId : Nat)
    (hass : HassModel) (st : CoordState D) (fetch : Nat → FetchResult D)
    (i : Nat) : FirstRefreshResult D :=
  let r := async_refresh cfg.name st fetch i
  match r.raised with
  | some e => ⟨r.state, hass, [], some (.update_failed e)⟩
  | none =>
    match cfg.update_interval with
    | some iv =>
      if hass.has_send_message then
        match hass.coordinators with
        | none => ⟨r.state, hass, [], some (.attribute_error coordinators_attr_error)⟩
        | some tbl =>
          ⟨r.state, { hass with coordinators := some ((cfg.timer_id, coordId) :: tbl) },
            [(cfg.timer_id, cfg.name, pyInt iv)], none⟩
      else ⟨r.state, hass, [], none⟩
    | none => ⟨r.state, hass, [], none⟩

/-! ## IntegrationRunner (`runner.py`) -/

/-- Outcome of `importlib.import_module(module_name)` as observed by
`handle_setup_integration`, plus the behaviour of the imported module. -/
inductive SetupOutcome where
  | ok (forwarded : List (List Char))
  | returned_false
  | raised (msg : List Char)
  deriving DecidableEq

/-- The imported integration module: whether it has `async_setup_entry`, and
what that entry point does when called (`forwarded` are the platforms it
passes to `async_forward_entry_setups` during setup). -/
structure ModuleModel where
  has_async_setup_entry : Bool
  setup : SetupOutcome
  deriving DecidableEq

/-- Result of importing a module by name. -/
inductive ImportOutcome where
  | success (m : ModuleModel)
  | module_not_found_error (msg : List Char)
  | import_error (msg : List Char)
  deriving DecidableEq

/-- Messages the runner sends back to the host (the variants exercised by the
dispatch handlers under verification). -/
inductive OutMsg where
  | ready
  | setup_complete (entry_id : List Char) (platforms : List (List Char))
  | setup_failed (entry_id error : List Char) (error_ty : List Char)
      (missing_package : Option (List Char))
  | unload_complete (entry_id : List Char)
  | update_complete (timer_id : List Char) (success : Bool)
  deriving DecidableEq

/-- Split a character list on a separator character; mirrors Python
`str.split(sep)` for a one-character separator. -/
def splitOnChar (sep : Char) : List Char → List (List Char)
  | [] => [[]]
  | c :: r =>
    let ps := splitOnChar sep r
    if c = sep then [] :: ps
    else
      match ps with
      | [] => [[c]]
      | p :: ps' => (c :: p) :: ps'

/-- `needle in haystack` on character lists (Python `in` for strings). -/
def hasSubstring (haystack needle : List Char) : Bool :=
  (List.tails haystack).any (fun t => needle.isPrefixOf t)

/-- The module-name extraction of runner.py line 94:
`error_msg.split("'")[1] if "'" in error_msg else "unknown"`. -/
def missing_module_of (msg : List Char) : List Char :=
  if msg.contains squoteC then ((splitOnChar squoteC msg).getD 1 "unknown".data)
  else "unknown".data

/-- The Python error message of a `ModuleNotFoundError` for module `modname`:
`No module named` followed by the module name in single quotes. -/
def no_module_named_msg (modname : List Char) : List Char :=
  "No module named ".data ++ squoteC :: (modname ++ [squoteC])

/-- `f"homeassistant.components.{domain}"`. -/
def module_name_of (domain : List Char) : List Char :=
  "homeassistant.components.".data ++ domain

/-- The body of the outer `try:` of `IntegrationRunner.handle_setup_integration`
(runner.py lines 82-184).  `.error e` models an exception reaching the outer
`except Exception` handler (the bare `raise` of line 116, or
`async_setup_entry` itself raising).  Note line 183: the `setup_complete`
reply always carries `platforms: []` (a TODO in the source), regardless of
what the module forwarded. -/
def setup_integration_body (imports : List Char → ImportOutcome)
    (domain entry_id : List Char) : Except (List Char) (List OutMsg) :=
  let module_name := module_name_of domain
  match imports module_name with
  | .module_not_found_error e =>
    if hasSubstring e "No module named".data then
      let missing := missing_module_of e
      if missing = module_name ∨ missing = domain then
        .ok [.setup_failed entry_id
          ("Integration ".data ++ [squoteC] ++ domain ++ [squoteC] ++
            " not found in Home Assistant source".data)
          "integration_not_found".data (some missing)]
      else
        .ok [.setup_failed entry_id
          ("Integration ".data ++ [squoteC] ++ domain ++ [squoteC] ++
            " requires Python package ".data ++ [squoteC] ++ missing ++ [squoteC] ++
            " which is not installed".data)
          "missing_dependency".data (some missing)]
    else
      .error e
  | .import_error e =>
    .ok [.setup_failed entry_id
      ("Failed to import integration ".data ++ [squoteC] ++ domain ++ [squoteC] ++
        ": ".data ++ e)
      "import_error".data none]
  | .success m =>
    if m.has_async_setup_entry = false then
      .ok [.setup_failed entry_id
        ("Integration ".data ++ [squoteC] ++ domain ++ [squoteC] ++
          " has no async_setup_entry function".data)
        "invalid_integration".data none]
    else
      match m.setup with
      | .raised e => .error e
      | .returned_false =>
        .ok [.setup_failed entry_id
          ("Integration ".data ++ [squoteC] ++ domain ++ [squoteC] ++
            " async_setup_entry returned False".data)
          "setup_failed".data none]
      | .ok _forwarded => .ok [.setup_complete entry_id []]

/-- `IntegrationRunner.handle_setup_integration` (runner.py lines 77-193):
the outer `except Exception` converts any escaping exception into a
`setup_failed` with `error_type: "unknown"`; the handler never re-raises. -/
def handle_setup_integration (imports : List Char → ImportOutcome)
    (domain entry_id : List Char) : List OutMsg :=
  match setup_integration_body imports domain entry_id with
  | .ok msgs => msgs
  | .error e => [.setup_failed entry_id e "unknown".data none]

/-- `async_forward_entry_setups` record-keeping (config_entries.py lines
25-27): the forwarded platforms are appended to `entry._forwarded_platforms`. -/
def forward_entry_setups (forwarded_platforms : List (List Char))
    (platforms : List (List Char)) : List (List Char) :=
  forwarded_platforms ++ platforms

/-- Inbound messages as dispatched on by `IntegrationRunner.handle_response`
(runner.py lines 195-238).  `unknown ty` stands for any discriminant string
the `if`-chain does not test for. -/
inductive InMsg where
  | setup_integration (domain entry_id : List Char)
  | unload_integration (entry_id : List Char)
  | trigger_update (timer_id entry_id : List Char)
  | shutdown
  | ack
  | error (message : List Char)
  | http_response (rd : ResponseData)
  | unknown (ty : List Char)
  deriving DecidableEq

/-- State owned by the runner's process: the `running` flag, and the
`ClientSession._pending_requests` table of the session the plugin uses. -/
structure RunnerState where
  running : Bool
  session : PendingTable
  deriving DecidableEq

/-- `IntegrationRunner.handle_response` (runner.py lines 195-238).  The
`if`-chain tests the types `setup_integration`, `unload_integration`,
`trigger_update`, `shutdown`, `ack` and `error`; everything else — including
`http_response` — falls into the final `else`, which only logs
"Unknown response type" and performs no action.  The `trigger_update` branch
(lines 215-224) replies `update_complete{success: True}` unconditionally
without looking up any coordinator (a TODO in the source). -/
def handle_response (imports : List Char → ImportOutcome) (st : RunnerState)
    (m : InMsg) : RunnerState × List OutMsg :=
  match m with
  | .setup_integration domain entry_id =>
    (st, handle_setup_integration imports domain entry_id)
  | .unload_integration entry_id => (st, [.unload_complete entry_id])
  | .trigger_update timer_id _entry_id => (st, [.update_complete timer_id true])
  | .shutdown => ({ st with running := false }, [])
  | .ack => (st, [])
  | .error _ => (st, [])
  | .http_response _ => (st, [])
  | .unknown _ => (st, [])

/-- One event on the inbound channel: a parsed message, end-of-channel
(zero-length read, raising `EOFError` in `recv_response`), or a line that
`json.loads` rejects. -/
inductive ChanEvent where
  | msg (m : InMsg)
  | eof
  | malformed
  deriving DecidableEq

/-- How `IntegrationRunner.run` (runner.py lines 240-259) left its loop.
All three exception-free exits return normally: the `except EOFError` and
`except Exception` clauses catch and log, and the `finally` closes the
transport.  `starved` is a model artifact for an input trace that ends while
the loop would still be reading. -/
inductive LoopExit where
  | shutdown_exit
  | eof_exit
  | error_exit
  | starved
  deriving DecidableEq

/-- Result of running the runner's main loop over an inbound event trace. -/
structure LoopResult where
  final : RunnerState
  out : List OutMsg
  exit : LoopExit
  transport_closed : Bool
  deriving DecidableEq

/-- `IntegrationRunner.run`'s message loop (runner.py lines 247-259):
`while self.running: response = await recv_response(); handle_response(response)`,
wrapped in `try/except EOFError/except Exception/finally: close()`. -/
def run_loop (imports : List Char → ImportOutcome) :
    RunnerState → List ChanEvent → LoopResult
  | st, [] =>
    if st.running then ⟨st, [], .starved, true⟩ else ⟨st, [], .shutdown_exit, true⟩
  | st, e :: rest =>
    if st.running = false then ⟨st, [], .shutdown_exit, true⟩
    else
      match e with
      | .eof => ⟨st, [], .eof_exit, true⟩
      | .malformed => ⟨st, [], .error_exit, true⟩
      | .msg m =>
        let p := handle_response imports st m
        let res := run_loop imports p.1 rest
        ⟨res.final, p.2 ++ res.out, res.exit, res.transport_closed⟩

/-! ## The wire format (`SocketTransport`, runner.py lines 19-61)

`send_message` writes `json.dumps(message).encode() + b"\n"`; `recv_response`
reads one line, strips it and runs `json.loads`.  The JSON value space is
embedded as `Json` (numbers are integers: every message field in this
protocol is an int, string, bool, list or object).  The serializer mirrors
CPython `json.dumps` defaults: separators `", "` / `": "` and
`ensure_ascii=True` (every non-ASCII character and every control character
is emitted as a `\uXXXX` escape, astral characters as a surrogate pair).
The parser models `json.loads` on this fragment. -/

/-- JSON values (integral-number fragment). -/
inductive Json where
  | null
  | bool (b : Bool)
  | num (k : Int)
  | str (s : List Char)
  | arr (xs : List Json)
  | obj (kvs : List (List Char × Json))

/-- Lowercase hex digit for `d < 16`, as CPython emits in `\uXXXX`. -/
def hexDigitChar (d : Nat) : Char :=
  Char.ofNat (if d < 10 then 48 + d else 87 + d)

/-- Four-digit lowercase hex rendering of `n < 0x10000`. -/
def toHex4 (n : Nat) : List Char :=
  [hexDigitChar (n / 4096 % 16), hexDigitChar (n / 256 % 16),
   hexDigitChar (n / 16 % 16), hexDigitChar (n % 16)]

/-- Value of one hex digit (upper or lower case), as `json.loads` accepts. -/
def hexValC (c : Char) : Option Nat :=
  if 48 ≤ c.toNat ∧ c.toNat ≤ 57 then some (c.toNat - 48)
  else if 97 ≤ c.toNat ∧ c.toNat ≤ 102 then some (c.toNat - 87)
  else if 65 ≤ c.toNat ∧ c.toNat ≤ 70 then some (c.toNat - 55)
  else none

/-- Read exactly four hex digits. -/
def readHex4 : List Char → Option (Nat × List Char)
  | a :: b :: c :: d :: r =>
    match hexValC a, hexValC b, hexValC c, hexValC d with
    | some x, some y, some z, some w => some (((x * 16 + y) * 16 + z) * 16 + w, r)
    | _, _, _, _ => none
  | _ => none

/-- Escape one character the way `json.dumps` (`ensure_ascii=True`) does:
short escapes for the two metacharacters and the five named control
characters, `\uXXXX` for the remaining control characters and for everything
above `~` (0x7E), with astral code points as a UTF-16 surrogate pair. -/
def escChar (c : Char) : List Char :=
  if c = quoteC then [bslashC, quoteC]
  else if c = bslashC then [bslashC, bslashC]
  else if c = nlC then [bslashC, 'n']
  else if c = tabC then [bslashC, 't']
  else if c = crC then [bslashC, 'r']
  else if c = bsC then [bslashC, 'b']
  else if c = ffC then [bslashC, 'f']
  else if c.toNat < 32 then bslashC :: 'u' :: toHex4 c.toNat
  else if c.toNat ≤ 126 then [c]
  else if c.toNat < 65536 then bslashC :: 'u' :: toHex4 c.toNat
  else
    (bslashC :: 'u' :: toHex4 (55296 + (c.toNat - 65536) / 1024)) ++
    (bslashC :: 'u' :: toHex4 (56320 + (c.toNat - 65536) % 1024))

/-- Escape a whole string body. -/
def escapeStr : List Char → List Char
  | [] => []
  | c :: cs => escChar c ++ escapeStr cs

/-- A JSON string literal: quote, escaped body, quote. -/
def serStr (s : List Char) : List Char := quoteC :: escapeStr s ++ [quoteC]

/-- Decimal digit character for `d < 10`. -/
def digitChar (d : Nat) : Char := Char.ofNat (48 + d)

/-- Decimal digits of `n`, least significant first (`[]` for 0). -/
def natDigsRev (n : Nat) : List Char :=
  if h : n = 0 then []
  else digitChar (n % 10) :: natDigsRev (n / 10)
termination_by n
decreasing_by exact Nat.div_lt_self (Nat.pos_of_ne_zero h) (by omega)

/-- Decimal rendering of a natural number. -/
def serNat (n : Nat) : List Char :=
  if n = 0 then [digitChar 0] else (natDigsRev n).reverse

/-- Decimal rendering of an integer, as `json.dumps` prints Python ints. -/
def serInt (k : Int) : List Char :=
  if k < 0 then '-' :: serNat k.natAbs else serNat k.toNat

mutual

/-- `json.dumps` with default separators, on the integral fragment. -/
def serialize : Json → List Char
  | .null => "null".data
  | .bool true => "true".data
  | .bool false => "false".data
  | .num k => serInt k
  | .str s => serStr s
  | .arr [] => ['[', ']']
  | .arr (x :: xs) => '[' :: (serItems x xs ++ [']'])
  | .obj [] => [lbraceC, rbraceC]
  | .obj (kv :: kvs) => lbraceC :: (serMembers kv kvs ++ [rbraceC])
termination_by j => sizeOf j

/-- Comma-separated rendering of a nonempty array body. -/
def serItems : Json → List Json → List Char
  | x, [] => serialize x
  | x, y :: ys => serialize x ++ ',' :: ' ' :: serItems y ys
termination_by x xs => sizeOf x + sizeOf xs

/-- Comma-separated rendering of a nonempty object body. -/
def serMembers : List Char × Json → List (List Char × Json) → List Char
  | (k, v), [] => serStr k ++ ':' :: ' ' :: serialize v
  | (k, v), kv :: kvs =>
    serStr k ++ ':' :: ' ' :: serialize v ++ ',' :: ' ' :: serMembers kv kvs
termination_by kv kvs => sizeOf kv + sizeOf kvs

end

mutual

/-- Nesting depth of a JSON value; a fuel bound for the parser. -/
def depth : Json → Nat
  | .null | .bool _ | .num _ | .str _ => 1
  | .arr xs => 1 + depthList xs
  | .obj kvs => 1 + depthMembers kvs
termination_by j => sizeOf j

/-- Maximum depth of the elements of an array. -/
def depthList : List Json → Nat
  | [] => 0
  | x :: xs => max (depth x) (depthList xs)
termination_by xs => sizeOf xs

/-- Maximum depth of the values of an object. -/
def depthMembers : List (List Char × Json) → Nat
  | [] => 0
  | (_, v) :: kvs => max (depth v) (depthMembers kvs)
termination_by kvs => sizeOf kvs

end

/-- JSON whitespace (the characters `json.loads` skips between tokens). -/
def isWsC (c : Char) : Bool :=
  c.toNat = 32 || c.toNat = 9 || c.toNat = 10 || c.toNat = 13

/-- Skip leading JSON whitespace. -/
def skipWs (l : List Char) : List Char := l.dropWhile isWsC

/-- Accumulate a maximal run of decimal digits (the integer-literal scanner). -/
def parseDigits : List Char → Nat → Nat × List Char
  | [], acc => (acc, [])
  | c :: r, acc =>
    if c.isDigit then parseDigits r (acc * 10 + (c.toNat - 48)) else (acc, c :: r)

/-- Decode one backslash escape (the backslash itself already consumed).
Surrogate pairs are combined; lone surrogates are rejected (the serializer
never emits them for valid scalar values). -/
def parseEscape : List Char → Option (Char × List Char)
  | [] => none
  | c :: r =>
    if c = quoteC then some (quoteC, r)
    else if c = bslashC then some (bslashC, r)
    else if c = '/' then some ('/', r)
    else if c = 'b' then some (bsC, r)
    else if c = 'f' then some (ffC, r)
    else if c = 'n' then some (nlC, r)
    else if c = 'r' then some (crC, r)
    else if c = 't' then some (tabC, r)
    else if c = 'u' then
      match readHex4 r with
      | none => none
      | some (h, r1) =>
        if 55296 ≤ h ∧ h < 56320 then
          match r1 with
          | b1 :: u1 :: r2 =>
            if b1 = bslashC ∧ u1 = 'u' then
              match readHex4 r2 with
              | none => none
              | some (lo, r3) =>
                if 56320 ≤ lo ∧ lo < 57344 then
                  some (Char.ofNat (65536 + (h - 55296) * 1024 + (lo - 56320)), r3)
                else none
            else none
          | _ => none
        else if 56320 ≤ h ∧ h < 57344 then none
        else some (Char.ofNat h, r1)
    else none

/-- Scan a string literal after the opening quote, undoing `escChar`. -/
def parseStringRest : Nat → List Char → Option (List Char × List Char)
  | 0, _ => none
  | _ + 1, [] => none
  | fuel + 1, c :: r =>
    if c = quoteC then some ([], r)
    else if c = bslashC then
      match parseEscape r with
      | none => none
      | some (ch, r1) =>
        match parseStringRest fuel r1 with
        | none => none
        | some (cs, r2) => some (ch :: cs, r2)
    else if c.toNat < 32 then none
    else
      match parseStringRest fuel r with
      | none => none
      | some (cs, r2) => some (c :: cs, r2)

/-- Parse the comma-separated elements of a nonempty array body using the
element parser `pv`, up to and including the closing bracket. -/
def parseItemsWith (pv : List Char → Option (Json × List Char)) :
    Nat → List Char → Option (List Json × List Char)
  | 0, _ => none
  | fuel + 1, s =>
    match pv (skipWs s) with
    | none => none
    | some (v, r) =>
      match skipWs r with
      | [] => none
      | c :: r2 =>
        if c = ',' then
          match parseItemsWith pv fuel r2 with
          | none => none
          | some (vs, r3) => some (v :: vs, r3)
        else if c = ']' then some ([v], r2)
        else none

/-- Parse the comma-separated members of a nonempty object body using the
value parser `pv`, up to and including the closing brace. -/
def parseMembersWith (pv : List Char → Option (Json × List Char)) :
    Nat → List Char → Option (List (List Char × Json) × List Char)
  | 0, _ => none
  | fuel + 1, s =>
    match skipWs s with
    | [] => none
    | c :: r =>
      if c = quoteC then
        match parseStringRest (r.length + 1) r with
        | none => none
        | some (k, r1) =>
          match skipWs r1 with
          | [] => none
          | c1 :: r2 =>
            if c1 = ':' then
              match pv (skipWs r2) with
              | none => none
              | some (v, r3) =>
                match skipWs r3 with
                | [] => none
                | c2 :: r4 =>
                  if c2 = ',' then
                    match parseMembersWith pv fuel r4 with
                    | none => none
                    | some (kvs, r5) => some ((k, v) :: kvs, r5)
                  else if c2 = rbraceC then some ([(k, v)], r4)
                  else none
            else none
      else none

/-- Recursive-descent JSON value parser, fuelled by nesting depth. -/
def parseValue : Nat → List Char → Option (Json × List Char)
  | 0, _ => none
  | fuel + 1, s =>
    match s with
    | [] => none
    | c :: r =>
      if c = 'n' then
        match r with
        | 'u' :: 'l' :: 'l' :: r2 => some (.null, r2)
        | _ => none
      else if c = 't' then
        match r with
        | 'r' :: 'u' :: 'e' :: r2 => some (.bool true, r2)
        | _ => none
      else if c = 'f' then
        match r with
        | 'a' :: 'l' :: 's' :: 'e' :: r2 => some (.bool false, r2)
        | _ => none
      else if c = quoteC then
        match parseStringRest (r.length + 1) r with
        | none => none
        | some (cs, r2) => some (.str cs, r2)
      else if c = '[' then
        let r1 := skipWs r
        if r1.head? = some ']' then some (.arr [], r1.tail)
        else
          match parseItemsWith (parseValue fuel) (r1.length + 1) r1 with
          | none => none
          | some (vs, r2) => some (.arr vs, r2)
      else if c = lbraceC then
        let r1 := skipWs r
        if r1.head? = some rbraceC then some (.obj [], r1.tail)
        else
          match parseMembersWith (parseValue fuel) (r1.length + 1) r1 with
          | none => none
          | some (kvs, r2) => some (.obj kvs, r2)
      else if c = '-' then
        match r with
        | [] => none
        | d :: r2 =>
          if d.isDigit then
            let p := parseDigits r2 (d.toNat - 48)
            some (.num (-(p.1 : Int)), p.2)
          else none
      else if c.isDigit then
        let p := parseDigits r (c.toNat - 48)
        some (.num (p.1 : Int), p.2)
      else none

/-- `json.loads`: parse one value, requiring only whitespace around it. -/
def parseJson (l : List Char) : Option Json :=
  match parseValue (l.length + 1) (skipWs l) with
  | some (v, r) => if (skipWs r).isEmpty then some v else none
  | none => none

/-- Python `str.strip()` restricted to the ASCII whitespace that can occur
here (nothing is ever actually stripped from a serialized message). -/
def pyStrip (l : List Char) : List Char :=
  ((l.dropWhile isWsC).reverse.dropWhile isWsC).reverse

/-- `SocketTransport.send_message` (runner.py lines 32-41): the serialized
message followed by one newline. -/
def send_message (m : Json) : List Char := serialize m ++ [nlC]

/-- What `SocketTransport.recv_response` (runner.py lines 43-55) does with the
buffered inbound bytes: `readline` (empty ⇒ `EOFError`), `strip`, `json.loads`
(failure ⇒ a raised decode error). -/
inductive RecvOutcome where
  | eof_error
  | decode_error
  | got (m : Json)

/-- Model of `recv_response` applied to a byte stream. -/
def recv_response (bs : List Char) : RecvOutcome :=
  if bs.isEmpty then .eof_error
  else
    match parseJson (pyStrip (bs.takeWhile (fun c => c ≠ nlC))) with
    | some m => .got m
    | none => .decode_error

/-- Numeric value of a decimal digit character. -/
def digitVal (c : Char) : Nat := c.toNat - 48

/-- Value of a digit list, least significant digit first. -/
def valRevDigits (ds : List Char) : Nat :=
  ds.foldr (fun c acc => digitVal c + 10 * acc) 0

/-- Value of a digit list, most significant digit first, over accumulator
`acc` — the loop invariant of `parseDigits`. -/
def foldValDigits (acc : Nat) (ds : List Char) : Nat :=
  ds.foldl (fun a c => a * 10 + digitVal c) acc

/-- The next character (if any) is not a decimal digit; contexts with this
property terminate the integer-literal scan. -/
def HeadNotDigit (l : List Char) : Prop :=
  ∀ c, l.head? = some c → c.isDigit = false

/-- All characters of a list are JSON whitespace. -/
def AllWs (l : List Char) : Prop := ∀ c ∈ l, isWsC c = true

/-! ## Round-trip proof for the wire format, part 1: characters and digits -/

theorem hexVal_hexDigit : ∀ d : Nat, d < 16 → hexValC (hexDigitChar d) = some d := by
  decide

theorem readHex4_toHex4 (n : Nat) (h : n < 65536) (r : List Char) :
    readHex4 (toHex4 n ++ r) = some (n, r) := by
  have h1 : n / 4096 % 16 < 16 := Nat.mod_lt _ (by omega)
  have h2 : n / 256 % 16 < 16 := Nat.mod_lt _ (by omega)
  have h3 : n / 16 % 16 < 16 := Nat.mod_lt _ (by omega)
  have h4 : n % 16 < 16 := Nat.mod_lt _ (by omega)
  simp only [toHex4, List.cons_append, List.nil_append, readHex4,
    hexVal_hexDigit _ h1, hexVal_hexDigit _ h2, hexVal_hexDigit _ h3,
    hexVal_hexDigit _ h4]
  congr 1
  congr 1
  omega

theorem char_toNat_valid (c : Char) :
    c.toNat < 55296 ∨ (57343 < c.toNat ∧ c.toNat < 1114112) := by
  have h := c.valid
  unfold Nat.isValidChar at h
  rcases h with h | ⟨h1, h2⟩
  · left; exact h
  · right; exact ⟨h1, h2⟩

theorem parseEscape_u (r : List Char) :
    parseEscape ('u' :: r) =
      match readHex4 r with
      | none => none
      | some (h, r1) =>
        if 55296 ≤ h ∧ h < 56320 then
          match r1 with
          | b1 :: u1 :: r2 =>
            if b1 = bslashC ∧ u1 = 'u' then
              match readHex4 r2 with
              | none => none
              | some (lo, r3) =>
                if 56320 ≤ lo ∧ lo < 57344 then
                  some (Char.ofNat (65536 + (h - 55296) * 1024 + (lo - 56320)), r3)
                else none
            else none
          | _ => none
        else if 56320 ≤ h ∧ h < 57344 then none
        else some (Char.ofNat h, r1) := rfl

theorem parseEscape_escChar (c : Char) (t : List Char) :
    (escChar c = [c] ∧ c ≠ quoteC ∧ c ≠ bslashC ∧ 32 ≤ c.toNat) ∨
    (∃ e, escChar c = bslashC :: e ∧ parseEscape (e ++ t) = some (c, t)) := by
  by_cases hq : c = quoteC
  · subst hq
    refine .inr ⟨[quoteC], ?_, ?_⟩
    · unfold escChar; rw [if_pos rfl]
    · rw [List.singleton_append]
      rfl
  by_cases hb : c = bslashC
  · subst hb
    refine .inr ⟨[bslashC], ?_, ?_⟩
    · unfold escChar; rw [if_neg (by decide), if_pos rfl]
    · rw [List.singleton_append]
      rfl
  by_cases hn : c = nlC
  · subst hn
    refine .inr ⟨['n'], ?_, ?_⟩
    · unfold escChar; rw [if_neg (by decide), if_neg (by decide), if_pos rfl]
    · rw [List.singleton_append]
      rfl
  by_cases ht : c = tabC
  · subst ht
    refine .inr ⟨['t'], ?_, ?_⟩
    · unfold escChar
      rw [if_neg (by decide), if_neg (by decide), if_neg (by decide), if_pos rfl]
    · rw [List.singleton_append]
      rfl
  by_cases hr : c = crC
  · subst hr
    refine .inr ⟨['r'], ?_, ?_⟩
    · unfold escChar
      rw [if_neg (by decide), if_neg (by decide), if_neg (by decide),
        if_neg (by decide), if_pos rfl]
    · rw [List.singleton_append]
      rfl
  by_cases hbs : c = bsC
  · subst hbs
    refine .inr ⟨['b'], ?_, ?_⟩
    · unfold escChar
      rw [if_neg (by decide), if_neg (by decide), if_neg (by decide),
        if_neg (by decide), if_neg (by decide), if_pos rfl]
    · rw [List.singleton_append]
      rfl
  by_cases hf : c = ffC
  · subst hf
    refine .inr ⟨['f'], ?_, ?_⟩
    · unfold escChar
      rw [if_neg (by decide), if_neg (by decide), if_neg (by decide),
        if_neg (by decide), if_neg (by decide), if_neg (by decide), if_pos rfl]
    · rw [List.singleton_append]
      rfl
  by_cases hlow : c.toNat < 32
  · refine .inr ⟨'u' :: toHex4 c.toNat, ?_, ?_⟩
    · unfold escChar
      rw [if_neg hq, if_neg hb, if_neg hn, if_neg ht, if_neg hr, if_neg hbs,
        if_neg hf, if_pos hlow]
    · have hx := readHex4_toHex4 c.toNat (by omega) t
      rw [List.cons_append, parseEscape_u]
      simp only [hx]
      rw [if_neg (by omega), if_neg (by omega), Char.ofNat_toNat]
  by_cases hascii : c.toNat ≤ 126
  · refine .inl ⟨?_, hq, hb, by omega⟩
    unfold escChar
    rw [if_neg hq, if_neg hb, if_neg hn, if_neg ht, if_neg hr, if_neg hbs,
      if_neg hf, if_neg hlow, if_pos hascii]
  by_cases hbmp : c.toNat < 65536
  · refine .inr ⟨'u' :: toHex4 c.toNat, ?_, ?_⟩
    · unfold escChar
      rw [if_neg hq, if_neg hb, if_neg hn, if_neg ht, if_neg hr, if_neg hbs,
        if_neg hf, if_neg hlow, if_neg hascii, if_pos hbmp]
    · have hv := char_toNat_valid c
      have hx := readHex4_toHex4 c.toNat (by omega) t
      rw [List.cons_append, parseEscape_u]
      simp only [hx]
      rw [if_neg (by omega), if_neg (by omega), Char.ofNat_toNat]
  · have hv := char_toNat_valid c
    have hge : 65536 ≤ c.toNat := by omega
    have hlt : c.toNat < 1114112 := by omega
    have hmod := Nat.mod_lt (c.toNat - 65536) (show 0 < 1024 by omega)
    refine .inr ⟨'u' :: toHex4 (55296 + (c.toNat - 65536) / 1024) ++
      bslashC :: 'u' :: toHex4 (56320 + (c.toNat - 65536) % 1024), ?_, ?_⟩
    · unfold escChar
      rw [if_neg hq, if_neg hb, if_neg hn, if_neg ht, if_neg hr, if_neg hbs,
        if_neg hf, if_neg hlow, if_neg hascii, if_neg hbmp]
      simp
    · have assoc2 : (('u' :: toHex4 (55296 + (c.toNat - 65536) / 1024) ++
          bslashC :: 'u' :: toHex4 (56320 + (c.toNat - 65536) % 1024)) ++ t) =
          'u' :: (toHex4 (55296 + (c.toNat - 65536) / 1024) ++
            (bslashC :: 'u' :: (toHex4 (56320 + (c.toNat - 65536) % 1024) ++ t))) := by
        simp
      have hx1 := readHex4_toHex4 (55296 + (c.toNat - 65536) / 1024) (by omega)
        (bslashC :: 'u' :: (toHex4 (56320 + (c.toNat - 65536) % 1024) ++ t))
      have hx2 := readHex4_toHex4 (56320 + (c.toNat - 65536) % 1024) (by omega) t
      have hp1 : 55296 ≤ 55296 + (c.toNat - 65536) / 1024 ∧
          55296 + (c.toNat - 65536) / 1024 < 56320 := by omega
      have hp2 : 56320 ≤ 56320 + (c.toNat - 65536) % 1024 ∧
          56320 + (c.toNat - 65536) % 1024 < 57344 := by omega
      rw [assoc2, parseEscape_u]
      simp only [hx1, if_pos hp1, hx2, if_pos hp2,
        if_pos (show bslashC = bslashC ∧ 'u' = 'u' from ⟨rfl, rfl⟩)]
      have harith : 65536 + ((55296 + (c.toNat - 65536) / 1024) - 55296) * 1024 +
          ((56320 + (c.toNat - 65536) % 1024) - 56320) = c.toNat := by omega
      rw [harith, Char.ofNat_toNat]
      simp

/-- Characters differing in code point differ. -/
theorem char_ne_of_toNat_ne {c d : Char} (h : c.toNat ≠ d.toNat) : c ≠ d :=
  fun heq => h (by rw [heq])

theorem parseStringRest_bslash (fuel : Nat) (r : List Char) :
    parseStringRest (fuel + 1) (bslashC :: r) =
      match parseEscape r with
      | none => none
      | some (ch, r1) =>
        match parseStringRest fuel r1 with
        | none => none
        | some (cs, r2) => some (ch :: cs, r2) := rfl

theorem parseStringRest_escapeStr (s : List Char) :
    ∀ (fuel : Nat) (rest : List Char), s.length < fuel →
      parseStringRest fuel (escapeStr s ++ quoteC :: rest) = some (s, rest) := by
  induction s with
  | nil =>
    intro fuel rest hf
    match fuel, hf with
    | fuel + 1, _ =>
      simp [escapeStr, parseStringRest]
  | cons c cs ih =>
    intro fuel rest hf
    match fuel, hf with
    | fuel + 1, hf =>
      have hrec := ih fuel rest (by simpa using Nat.lt_of_succ_lt_succ hf)
      rcases parseEscape_escChar c (escapeStr cs ++ quoteC :: rest) with
        ⟨he, hnq, hnb, hge⟩ | ⟨e, he, hpe⟩
      · have : escapeStr (c :: cs) ++ quoteC :: rest =
            c :: (escapeStr cs ++ quoteC :: rest) := by
          simp [escapeStr, he]
        rw [this]
        simp only [parseStringRest]
        rw [if_neg hnq, if_neg hnb, if_neg (by omega), hrec]
      · have : escapeStr (c :: cs) ++ quoteC :: rest =
            bslashC :: (e ++ (escapeStr cs ++ quoteC :: rest)) := by
          simp [escapeStr, he]
        rw [this, parseStringRest_bslash, hpe]
        simp only [hrec]

/-- Every character escape produces at least one character. -/
theorem escChar_ne_nil (c : Char) : escChar c ≠ [] := by
  rcases parseEscape_escChar c [] with ⟨he, _, _, _⟩ | ⟨e, he, _⟩ <;> simp [he]

theorem length_le_escapeStr (s : List Char) : s.length ≤ (escapeStr s).length := by
  induction s with
  | nil => simp [escapeStr]
  | cons c cs ih =>
    have h1 : 1 ≤ (escChar c).length := by
      have := escChar_ne_nil c
      cases h : escChar c with
      | nil => exact absurd h this
      | cons a l => simp
    simp only [escapeStr, List.length_append, List.length_cons]
    omega

theorem hexDigitChar_ne_nl : ∀ d : Nat, d < 16 → nlC ≠ hexDigitChar d := by decide

theorem nl_not_mem_toHex4 (n : Nat) : nlC ∉ toHex4 n := by
  intro h
  simp only [toHex4, List.mem_cons, List.not_mem_nil, or_false] at h
  rcases h with h | h | h | h <;>
    exact hexDigitChar_ne_nl _ (Nat.mod_lt _ (by omega)) h

/-- The serializer never emits a raw newline from a string escape. -/
theorem nl_not_mem_escChar (c : Char) : nlC ∉ escChar c := by
  by_cases hq : c = quoteC
  · subst hq; unfold escChar; rw [if_pos rfl]; decide
  by_cases hb : c = bslashC
  · subst hb; unfold escChar; rw [if_neg (by decide), if_pos rfl]; decide
  by_cases hn : c = nlC
  · subst hn; unfold escChar
    rw [if_neg (by decide), if_neg (by decide), if_pos rfl]; decide
  by_cases htb : c = tabC
  · subst htb; unfold escChar
    rw [if_neg (by decide), if_neg (by decide), if_neg (by decide), if_pos rfl]
    decide
  by_cases hcr : c = crC
  · subst hcr; unfold escChar
    rw [if_neg (by decide), if_neg (by decide), if_neg (by decide),
      if_neg (by decide), if_pos rfl]
    decide
  by_cases hbs2 : c = bsC
  · subst hbs2; unfold escChar
    rw [if_neg (by decide), if_neg (by decide), if_neg (by decide),
      if_neg (by decide), if_neg (by decide), if_pos rfl]
    decide
  by_cases hff : c = ffC
  · subst hff; unfold escChar
    rw [if_neg (by decide), if_neg (by decide), if_neg (by decide),
      if_neg (by decide), if_neg (by decide), if_neg (by decide), if_pos rfl]
    decide
  by_cases hlow : c.toNat < 32
  · unfold escChar
    rw [if_neg hq, if_neg hb, if_neg hn, if_neg htb, if_neg hcr, if_neg hbs2,
      if_neg hff, if_pos hlow]
    intro hch
    simp only [List.mem_cons] at hch
    rcases hch with h | h | h
    · revert h; decide
    · revert h; decide
    · exact nl_not_mem_toHex4 _ h
  by_cases hascii : c.toNat ≤ 126
  · unfold escChar
    rw [if_neg hq, if_neg hb, if_neg hn, if_neg htb, if_neg hcr, if_neg hbs2,
      if_neg hff, if_neg hlow, if_pos hascii]
    intro hch
    simp only [List.mem_singleton] at hch
    exact hn hch.symm
  by_cases hbmp : c.toNat < 65536
  · unfold escChar
    rw [if_neg hq, if_neg hb, if_neg hn, if_neg htb, if_neg hcr, if_neg hbs2,
      if_neg hff, if_neg hlow, if_neg hascii, if_pos hbmp]
    intro hch
    simp only [List.mem_cons] at hch
    rcases hch with h | h | h
    · revert h; decide
    · revert h; decide
    · exact nl_not_mem_toHex4 _ h
  · unfold escChar
    rw [if_neg hq, if_neg hb, if_neg hn, if_neg htb, if_neg hcr, if_neg hbs2,
      if_neg hff, if_neg hlow, if_neg hascii, if_neg hbmp]
    intro hch
    rw [List.mem_append] at hch
    rcases hch with h | h <;>
    · simp only [List.mem_cons] at h
      rcases h with h | h | h
      · revert h; decide
      · revert h; decide
      · exact nl_not_mem_toHex4 _ h

theorem nl_not_mem_escapeStr (s : List Char) : nlC ∉ escapeStr s := by
  induction s with
  | nil => simp [escapeStr]
  | cons c cs ih =>
    simp only [escapeStr, List.mem_append]
    rintro (h | h)
    · exact nl_not_mem_escChar c h
    · exact ih h

/-! ## Round-trip proof, part 2: decimal integers -/

theorem digitChar_toNat : ∀ d : Nat, d < 10 → (digitChar d).toNat = 48 + d := by
  decide

theorem digitChar_isDigit : ∀ d : Nat, d < 10 → (digitChar d).isDigit = true := by
  decide

theorem digitChar_ne_nl : ∀ d : Nat, d < 10 → digitChar d ≠ nlC := by decide

theorem natDigsRev_digits (n : Nat) : ∀ c ∈ natDigsRev n, c.isDigit = true := by
  induction n using Nat.strong_induction_on with
  | _ n ih =>
    intro c hc
    rw [natDigsRev] at hc
    split_ifs at hc with h
    · simp at hc
    · simp only [List.mem_cons] at hc
      rcases hc with h1 | h1
      · subst h1; exact digitChar_isDigit _ (Nat.mod_lt _ (by omega))
      · exact ih (n / 10) (Nat.div_lt_self (by omega) (by omega)) c h1

theorem natDigsRev_ne_nil (n : Nat) (h : n ≠ 0) : natDigsRev n ≠ [] := by
  rw [natDigsRev]
  simp [h]

theorem valRev_natDigsRev (n : Nat) : valRevDigits (natDigsRev n) = n := by
  induction n using Nat.strong_induction_on with
  | _ n ih =>
    rw [natDigsRev]
    split_ifs with h
    · simp [valRevDigits, h]
    · have hrec := ih (n / 10) (Nat.div_lt_self (by omega) (by omega))
      have hd : digitVal (digitChar (n % 10)) = n % 10 := by
        unfold digitVal
        rw [digitChar_toNat _ (Nat.mod_lt _ (by omega))]
        omega
      simp only [valRevDigits, List.foldr_cons] at *
      rw [hd, hrec]
      omega

theorem foldVal_reverse (ds : List Char) (acc : Nat) :
    foldValDigits acc ds.reverse = acc * 10 ^ ds.length + valRevDigits ds := by
  induction ds generalizing acc with
  | nil => simp [foldValDigits, valRevDigits]
  | cons d tail ih =>
    simp only [List.reverse_cons, foldValDigits, List.foldl_append, List.foldl_cons,
      List.foldl_nil, valRevDigits, List.foldr_cons, List.length_cons]
    have := ih acc
    simp only [foldValDigits, valRevDigits] at this
    rw [this, pow_succ]
    ring

theorem serNat_all_digits (n : Nat) : ∀ c ∈ serNat n, c.isDigit = true := by
  intro c hc
  unfold serNat at hc
  split_ifs at hc with h
  · simp at hc; subst hc; decide
  · rw [List.mem_reverse] at hc
    exact natDigsRev_digits n c hc

theorem serNat_ne_nil (n : Nat) : serNat n ≠ [] := by
  unfold serNat
  split_ifs with h
  · simp
  · simpa using natDigsRev_ne_nil n h

theorem serNat_val (n : Nat) : foldValDigits 0 (serNat n) = n := by
  unfold serNat
  split_ifs with h
  · subst h; decide
  · rw [foldVal_reverse, valRev_natDigsRev]
    omega

theorem serNat_ne_nl (n : Nat) : ∀ c ∈ serNat n, c ≠ nlC := by
  intro c hc
  have hd := serNat_all_digits n c hc
  intro heq
  subst heq
  simp [Char.isDigit] at hd
  revert hd
  decide

theorem digit_not_special {c : Char} (h : c.isDigit = true) :
    isWsC c = false ∧ c ≠ ']' := by
  have hb : 48 ≤ c.toNat ∧ c.toNat ≤ 57 := by
    simp [Char.isDigit] at h
    exact ⟨h.1, h.2⟩
  have hrb : (']' : Char).toNat = 93 := rfl
  constructor
  · simp only [isWsC, Bool.or_eq_false_iff, decide_eq_false_iff_not]
    omega
  · exact char_ne_of_toNat_ne (by omega)

theorem nl_not_mem_serNat (n : Nat) : nlC ∉ serNat n := fun hc =>
  absurd (serNat_all_digits n nlC hc) (by decide)

theorem parseDigits_spec (ds : List Char) :
    ∀ (rest : List Char) (acc : Nat), (∀ c ∈ ds, c.isDigit = true) →
      HeadNotDigit rest →
      parseDigits (ds ++ rest) acc = (foldValDigits acc ds, rest) := by
  induction ds with
  | nil =>
    intro rest acc _ hrest
    cases rest with
    | nil => rfl
    | cons r rs =>
      simp only [List.nil_append, parseDigits]
      rw [if_neg (by simpa using hrest r rfl)]
      rfl
  | cons d ds ih =>
    intro rest acc hds hrest
    simp only [List.cons_append, parseDigits, List.append_eq]
    rw [if_pos (hds d (by simp))]
    have hstep := ih rest (acc * 10 + (d.toNat - 48))
      (fun c hc => hds c (List.mem_cons_of_mem _ hc)) hrest
    rw [hstep]
    rfl

/-! ## Round-trip proof, part 3: structure of serializer output -/

theorem serialize_head (j : Json) :
    ∃ c cs, serialize j = c :: cs ∧ isWsC c = false ∧ c ≠ ']' := by
  cases j with
  | null =>
    exact ⟨'n', ['u', 'l', 'l'], by simp only [serialize], by decide,
      by decide⟩
  | bool b =>
    cases b with
    | true =>
      exact ⟨'t', ['r', 'u', 'e'], by simp only [serialize], by decide,
        by decide⟩
    | false =>
      exact ⟨'f', ['a', 'l', 's', 'e'], by simp only [serialize],
        by decide, by decide⟩
  | num k =>
    by_cases hk : k < 0
    · exact ⟨'-', serNat k.natAbs, by simp [serialize, serInt, hk], by decide,
        by decide⟩
    · have hne := serNat_ne_nil k.toNat
      cases hs : serNat k.toNat with
      | nil => exact absurd hs hne
      | cons c cs =>
        have hdig : c.isDigit = true :=
          serNat_all_digits k.toNat c (by rw [hs]; simp)
        have hfacts := digit_not_special hdig
        exact ⟨c, cs, by simp [serialize, serInt, hk, hs], hfacts.1, hfacts.2⟩
  | str s =>
    exact ⟨quoteC, escapeStr s ++ [quoteC], by simp [serialize, serStr],
      by decide, by decide⟩
  | arr xs =>
    cases xs with
    | nil => exact ⟨'[', [']'], by simp [serialize], by decide, by decide⟩
    | cons x xs =>
      exact ⟨'[', serItems x xs ++ [']'], by simp [serialize], by decide, by decide⟩
  | obj kvs =>
    cases kvs with
    | nil => exact ⟨lbraceC, [rbraceC], by simp [serialize], by decide, by decide⟩
    | cons kv kvs =>
      exact ⟨lbraceC, serMembers kv kvs ++ [rbraceC], by simp [serialize],
        by decide, by decide⟩

theorem serialize_ne_nil (j : Json) : serialize j ≠ [] := by
  obtain ⟨c, cs, he, -, -⟩ := serialize_head j
  simp [he]

theorem dropWhile_eq_self_of_head (l : List Char)
    (hh : ∀ c, l.head? = some c → isWsC c = false) : l.dropWhile isWsC = l := by
  cases l with
  | nil => rfl
  | cons c cs =>
    have := hh c rfl
    simp [List.dropWhile, this]

theorem skipWs_cons_of_not_ws {c : Char} (l : List Char) (h : isWsC c = false) :
    skipWs (c :: l) = c :: l := by
  simp [skipWs, List.dropWhile, h]

theorem skipWs_serialize (j : Json) (t : List Char) :
    skipWs (serialize j ++ t) = serialize j ++ t := by
  obtain ⟨c, cs, he, hws, -⟩ := serialize_head j
  rw [he, List.cons_append, skipWs_cons_of_not_ws _ hws]

theorem skipWs_ws_append (sp : List Char) (h : AllWs sp) (l : List Char) :
    skipWs (sp ++ l) = skipWs l := by
  induction sp with
  | nil => simp
  | cons c cs ih =>
    have hc := h c (by simp)
    simp only [List.cons_append, skipWs, List.dropWhile, hc]
    exact ih fun d hd => h d (by simp [hd])

theorem last_digits_not_ws (l : List Char) (hne : l ≠ [])
    (hd : ∀ c ∈ l, c.isDigit = true) :
    ∃ c, l.getLast? = some c ∧ isWsC c = false :=
  ⟨l.getLast hne, List.getLast?_eq_getLast l hne,
    (digit_not_special (hd _ (List.getLast_mem hne))).1⟩

theorem serialize_last (j : Json) :
    ∃ c, (serialize j).getLast? = some c ∧ isWsC c = false := by
  cases j with
  | null =>
    have h : serialize Json.null = ['n', 'u', 'l', 'l'] := by
      simp only [serialize]
    exact ⟨'l', by rw [h]; rfl, by decide⟩
  | bool b =>
    cases b with
    | true =>
      have h : serialize (Json.bool true) = ['t', 'r', 'u', 'e'] := by
        simp only [serialize]
      exact ⟨'e', by rw [h]; rfl, by decide⟩
    | false =>
      have h : serialize (Json.bool false) = ['f', 'a', 'l', 's', 'e'] := by
        simp only [serialize]
      exact ⟨'e', by rw [h]; rfl, by decide⟩
  | num k =>
    by_cases hk : k < 0
    · obtain ⟨c, hc, hws⟩ := last_digits_not_ws (serNat k.natAbs) (serNat_ne_nil _)
        (serNat_all_digits _)
      refine ⟨c, ?_, hws⟩
      have heq : serialize (Json.num k) = '-' :: serNat k.natAbs := by
        simp [serialize, serInt, hk]
      rw [heq]
      have hne := serNat_ne_nil k.natAbs
      cases hs : serNat k.natAbs with
      | nil => exact absurd hs hne
      | cons d ds =>
        rw [hs] at hc
        rw [List.getLast?_cons_cons]
        exact hc
    · obtain ⟨c, hc, hws⟩ := last_digits_not_ws (serNat k.toNat) (serNat_ne_nil _)
        (serNat_all_digits _)
      refine ⟨c, ?_, hws⟩
      have heq : serialize (Json.num k) = serNat k.toNat := by
        simp [serialize, serInt, hk]
      rw [heq]
      exact hc
  | str s =>
    refine ⟨quoteC, ?_, by decide⟩
    have h : serialize (.str s) = (quoteC :: escapeStr s) ++ [quoteC] := by
      simp [serialize, serStr]
    rw [h, List.getLast?_concat]
  | arr xs =>
    cases xs with
    | nil =>
      have h : serialize (Json.arr []) = ['[', ']'] := by simp [serialize]
      exact ⟨']', by rw [h]; rfl, by decide⟩
    | cons x xs =>
      refine ⟨']', ?_, by decide⟩
      have h : serialize (.arr (x :: xs)) = ('[' :: serItems x xs) ++ [']'] := by
        simp [serialize]
      rw [h, List.getLast?_concat]
  | obj kvs =>
    cases kvs with
    | nil =>
      have h : serialize (Json.obj []) = [lbraceC, rbraceC] := by simp [serialize]
      exact ⟨rbraceC, by rw [h]; rfl, by decide⟩
    | cons kv kvs =>
      refine ⟨rbraceC, ?_, by decide⟩
      have h : serialize (.obj (kv :: kvs)) =
          (lbraceC :: serMembers kv kvs) ++ [rbraceC] := by
        simp [serialize]
      rw [h, List.getLast?_concat]

theorem nl_not_mem_serStr (s : List Char) : nlC ∉ serStr s := by
  intro h
  have h1 : nlC ∉ escapeStr s := nl_not_mem_escapeStr s
  have h2 : nlC ≠ quoteC := by decide
  simp only [serStr, List.mem_cons, List.mem_append, List.mem_singleton] at h
  tauto

theorem nl_not_mem_serInt (k : Int) : nlC ∉ serInt k := by
  intro h
  unfold serInt at h
  split_ifs at h
  · simp only [List.mem_cons] at h
    rcases h with h | h
    · revert h; decide
    · exact nl_not_mem_serNat _ h
  · exact nl_not_mem_serNat _ h

theorem nl_not_mem_serItems (x : Json) (xs : List Json)
    (h : ∀ z ∈ x :: xs, nlC ∉ serialize z) : nlC ∉ serItems x xs := by
  induction xs generalizing x with
  | nil =>
    intro hc
    rw [serItems] at hc
    exact h x (by simp) hc
  | cons y ys ih =>
    intro hc
    rw [serItems] at hc
    have h1 : nlC ∉ serialize x := h x (by simp)
    have h2 : nlC ∉ serItems y ys := ih y (fun z hz => h z (by simp at hz ⊢; tauto))
    have h3 : nlC ≠ ',' := by decide
    have h4 : nlC ≠ ' ' := by decide
    simp only [List.mem_append, List.mem_cons] at hc
    tauto

theorem nl_not_mem_serMembers (kv : List Char × Json)
    (kvs : List (List Char × Json))
    (h : ∀ z ∈ kv :: kvs, nlC ∉ serialize z.2) : nlC ∉ serMembers kv kvs := by
  induction kvs generalizing kv with
  | nil =>
    intro hc
    obtain ⟨k, v⟩ := kv
    rw [serMembers] at hc
    have h1 : nlC ∉ serStr k := nl_not_mem_serStr k
    have h2 : nlC ∉ serialize v := h (k, v) (by simp)
    have h3 : nlC ≠ ':' := by decide
    have h4 : nlC ≠ ' ' := by decide
    simp only [List.mem_append, List.mem_cons] at hc
    tauto
  | cons kv2 kvs ih =>
    intro hc
    obtain ⟨k, v⟩ := kv
    rw [serMembers] at hc
    have h1 : nlC ∉ serStr k := nl_not_mem_serStr k
    have h2 : nlC ∉ serialize v := h (k, v) (by simp)
    have h3 : nlC ∉ serMembers kv2 kvs :=
      ih kv2 (fun z hz => h z (by simp at hz ⊢; tauto))
    have h4 : nlC ≠ ':' := by decide
    have h5 : nlC ≠ ' ' := by decide
    have h6 : nlC ≠ ',' := by decide
    simp only [List.mem_append, List.mem_cons] at hc
    tauto

theorem nl_not_mem_serialize (j : Json) : nlC ∉ serialize j := by
  suffices H : ∀ (n : Nat) (j : Json), sizeOf j ≤ n → nlC ∉ serialize j from
    H (sizeOf j) j le_rfl
  intro n
  induction n with
  | zero =>
    intro j hj
    exfalso
    cases j <;> simp_all
  | succ n ih =>
    intro j hj
    cases j with
    | null =>
      have h : serialize Json.null = ['n', 'u', 'l', 'l'] := by
        simp only [serialize]
      rw [h]; decide
    | bool b =>
      cases b with
      | true =>
        have h : serialize (Json.bool true) = ['t', 'r', 'u', 'e'] := by
          simp only [serialize]
        rw [h]; decide
      | false =>
        have h : serialize (Json.bool false) = ['f', 'a', 'l', 's', 'e'] := by
          simp only [serialize]
        rw [h]; decide
    | num k =>
      have h : serialize (Json.num k) = serInt k := by simp [serialize]
      rw [h]; exact nl_not_mem_serInt k
    | str s =>
      have h : serialize (Json.str s) = serStr s := by simp [serialize]
      rw [h]; exact nl_not_mem_serStr s
    | arr xs =>
      cases xs with
      | nil =>
        have h : serialize (Json.arr []) = ['[', ']'] := by simp [serialize]
        rw [h]; decide
      | cons x xs =>
        intro hc
        have hsz : ∀ z ∈ x :: xs, sizeOf z ≤ n := by
          intro z hz
          have h1 := List.sizeOf_lt_of_mem hz
          have h2 : sizeOf (Json.arr (x :: xs)) = 1 + sizeOf (x :: xs) := by
            simp
          omega
        have heq : serialize (.arr (x :: xs)) = '[' :: (serItems x xs ++ [']']) := by
          simp [serialize]
        rw [heq] at hc
        have h1 : nlC ∉ serItems x xs :=
          nl_not_mem_serItems x xs (fun z hz => ih z (hsz z hz))
        have h2 : nlC ≠ '[' := by decide
        have h3 : nlC ≠ ']' := by decide
        simp only [List.mem_cons, List.mem_append, List.mem_singleton] at hc
        tauto
    | obj kvs =>
      cases kvs with
      | nil =>
        have h : serialize (Json.obj []) = [lbraceC, rbraceC] := by simp [serialize]
        rw [h]; decide
      | cons kv kvs =>
        intro hc
        have hsz : ∀ z ∈ kv :: kvs, sizeOf z.2 ≤ n := by
          intro z hz
          have h1 := List.sizeOf_lt_of_mem hz
          have h2 : sizeOf (Json.obj (kv :: kvs)) = 1 + sizeOf (kv :: kvs) := by
            simp
          have h3 : sizeOf z.2 < sizeOf z := by
            obtain ⟨a, b⟩ := z
            simp only [Prod.mk.sizeOf_spec]
            omega
          omega
        have heq : serialize (.obj (kv :: kvs)) =
            lbraceC :: (serMembers kv kvs ++ [rbraceC]) := by
          simp [serialize]
        rw [heq] at hc
        have h1 : nlC ∉ serMembers kv kvs :=
          nl_not_mem_serMembers kv kvs (fun z hz => ih z.2 (hsz z hz))
        have h2 : nlC ≠ lbraceC := by decide
        have h3 : nlC ≠ rbraceC := by decide
        simp only [List.mem_cons, List.mem_append, List.mem_singleton] at hc
        tauto

theorem takeWhile_until_nl (a : List Char) (h : nlC ∉ a) (b : List Char) :
    (a ++ nlC :: b).takeWhile (fun c => c ≠ nlC) = a := by
  induction a with
  | nil => simp [List.takeWhile]
  | cons c cs ih =>
    have hc : c ≠ nlC := fun heq => h (by simp [heq])
    have hrec := ih (fun hm => h (by simp [hm]))
    rw [List.cons_append, List.takeWhile_cons, if_pos (decide_eq_true hc), hrec]

theorem pyStrip_of_clean (l : List Char)
    (hh : ∀ c, l.head? = some c → isWsC c = false)
    (hl : ∀ c, l.getLast? = some c → isWsC c = false) : pyStrip l = l := by
  unfold pyStrip
  rw [dropWhile_eq_self_of_head l hh]
  rw [dropWhile_eq_self_of_head l.reverse
    (fun c hc => hl c (by rwa [List.head?_reverse] at hc))]
  exact List.reverse_reverse l

/-! ## Round-trip proof, part 4: the value parser -/

theorem depth_pos (j : Json) : 1 ≤ depth j := by
  cases j <;> simp [depth]

theorem depth_le_depthList {z : Json} {xs : List Json} (h : z ∈ xs) :
    depth z ≤ depthList xs := by
  induction xs with
  | nil => simp at h
  | cons y ys ih =>
    rw [depthList]
    rcases List.mem_cons.mp h with h1 | h1
    · subst h1; exact le_max_left _ _
    · exact le_trans (ih h1) (le_max_right _ _)

theorem depth_le_depthMembers {z : List Char × Json}
    {kvs : List (List Char × Json)} (h : z ∈ kvs) :
    depth z.2 ≤ depthMembers kvs := by
  induction kvs with
  | nil => simp at h
  | cons kv ks ih =>
    obtain ⟨k, v⟩ := kv
    rw [depthMembers]
    rcases List.mem_cons.mp h with h1 | h1
    · subst h1; exact le_max_left _ _
    · exact le_trans (ih h1) (le_max_right _ _)

theorem serialize_length_pos (j : Json) : 1 ≤ (serialize j).length := by
  have := serialize_ne_nil j
  cases h : serialize j with
  | nil => exact absurd h this
  | cons c cs => simp

theorem serItems_length (x : Json) (xs : List Json) :
    (x :: xs).length ≤ (serItems x xs).length := by
  induction xs generalizing x with
  | nil =>
    rw [serItems]
    simpa using serialize_length_pos x
  | cons y ys ih =>
    rw [serItems]
    have h1 := serialize_length_pos x
    have h2 := ih y
    simp only [List.length_append, List.length_cons] at *
    omega

theorem serMembers_length (kv : List Char × Json) (kvs : List (List Char × Json)) :
    (kv :: kvs).length ≤ (serMembers kv kvs).length := by
  induction kvs generalizing kv with
  | nil =>
    obtain ⟨k, v⟩ := kv
    rw [serMembers]
    have h1 := serialize_length_pos v
    simp only [serStr, List.length_append, List.length_cons, List.length_nil]
    omega
  | cons kv2 kvs ih =>
    obtain ⟨k, v⟩ := kv
    rw [serMembers]
    have h1 := serialize_length_pos v
    have h2 := ih kv2
    simp only [serStr, List.length_append, List.length_cons, List.length_nil] at *
    omega

theorem serItems_eq_append (x : Json) (xs : List Json) :
    ∃ t, serItems x xs = serialize x ++ t := by
  cases xs with
  | nil => exact ⟨[], by rw [serItems]; simp⟩
  | cons y ys => exact ⟨',' :: ' ' :: serItems y ys, by rw [serItems]⟩

/-- A closing bracket, closing brace or comma never starts a digit run. -/
theorem headNotDigit_rbracket (rest : List Char) : HeadNotDigit (']' :: rest) := by
  intro c hc
  simp only [List.head?_cons, Option.some_inj] at hc
  subst hc; decide

theorem headNotDigit_rbrace (rest : List Char) : HeadNotDigit (rbraceC :: rest) := by
  intro c hc
  simp only [List.head?_cons, Option.some_inj] at hc
  subst hc; decide

theorem headNotDigit_comma (rest : List Char) : HeadNotDigit (',' :: rest) := by
  intro c hc
  simp only [List.head?_cons, Option.some_inj] at hc
  subst hc; decide

theorem parseItemsWith_spec (pv : List Char → Option (Json × List Char))
    (xs : List Json) : ∀ (x : Json) (sp rest : List Char) (fuel : Nat),
    (∀ z ∈ x :: xs, ∀ r2, HeadNotDigit r2 → pv (serialize z ++ r2) = some (z, r2)) →
    AllWs sp → (x :: xs).length ≤ fuel →
    parseItemsWith pv fuel (sp ++ (serItems x xs ++ ']' :: rest)) =
      some (x :: xs, rest) := by
  induction xs with
  | nil =>
    intro x sp rest fuel hpv hsp hfuel
    match fuel, hfuel with
    | fuel + 1, _ =>
      have hskip : skipWs (sp ++ (serItems x [] ++ ']' :: rest)) =
          serialize x ++ ']' :: rest := by
        rw [serItems, skipWs_ws_append sp hsp, skipWs_serialize]
      simp only [parseItemsWith, hskip,
        hpv x (by simp) (']' :: rest) (headNotDigit_rbracket rest),
        skipWs_cons_of_not_ws rest (show isWsC ']' = false by decide)]
      simp
  | cons y ys ih =>
    intro x sp rest fuel hpv hsp hfuel
    match fuel, hfuel with
    | fuel + 1, hfuel =>
      have hskip : skipWs (sp ++ (serItems x (y :: ys) ++ ']' :: rest)) =
          serialize x ++ (',' :: ' ' :: (serItems y ys ++ ']' :: rest)) := by
        rw [serItems, skipWs_ws_append sp hsp]
        have ha : (serialize x ++ ',' :: ' ' :: serItems y ys) ++ ']' :: rest =
            serialize x ++ (',' :: ' ' :: (serItems y ys ++ ']' :: rest)) := by
          simp
        rw [ha, skipWs_serialize]
      have hrec := ih y [' '] rest fuel
        (fun z hz r2 hr2 => hpv z (by simp at hz ⊢; tauto) r2 hr2)
        (fun c hc => by simp at hc; subst hc; decide)
        (by simp at hfuel ⊢; omega)
      simp only [parseItemsWith, hskip,
        hpv x (by simp) _ (headNotDigit_comma _),
        skipWs_cons_of_not_ws _ (show isWsC ',' = false by decide)]
      simp only [List.singleton_append] at hrec
      simp only [if_true, hrec]

theorem parseMembersWith_spec (pv : List Char → Option (Json × List Char))
    (kvs : List (List Char × Json)) :
    ∀ (kv : List Char × Json) (sp rest : List Char) (fuel : Nat),
    (∀ z ∈ kv :: kvs, ∀ r2, HeadNotDigit r2 →
      pv (serialize z.2 ++ r2) = some (z.2, r2)) →
    AllWs sp → (kv :: kvs).length ≤ fuel →
    parseMembersWith pv fuel (sp ++ (serMembers kv kvs ++ rbraceC :: rest)) =
      some (kv :: kvs, rest) := by
  induction kvs with
  | nil =>
    intro kv sp rest fuel hpv hsp hfuel
    obtain ⟨k, v⟩ := kv
    match fuel, hfuel with
    | fuel + 1, _ =>
      have hskip : skipWs (sp ++ (serMembers (k, v) [] ++ rbraceC :: rest)) =
          quoteC :: (escapeStr k ++ quoteC ::
            (':' :: ' ' :: (serialize v ++ rbraceC :: rest))) := by
        rw [serMembers, skipWs_ws_append sp hsp]
        have ha : (serStr k ++ ':' :: ' ' :: serialize v) ++ rbraceC :: rest =
            quoteC :: (escapeStr k ++ quoteC ::
              (':' :: ' ' :: (serialize v ++ rbraceC :: rest))) := by
          simp [serStr]
        rw [ha, skipWs_cons_of_not_ws _ (show isWsC quoteC = false by decide)]
      have hstr := parseStringRest_escapeStr k
        ((escapeStr k ++ quoteC ::
          (':' :: ' ' :: (serialize v ++ rbraceC :: rest))).length + 1)
        (':' :: ' ' :: (serialize v ++ rbraceC :: rest))
        (by
          have := length_le_escapeStr k
          simp only [List.length_append, List.length_cons]
          omega)
      have hv : pv (serialize v ++ rbraceC :: rest) = some (v, rbraceC :: rest) :=
        hpv (k, v) (by simp) (rbraceC :: rest) (headNotDigit_rbrace rest)
      have hskip2 : skipWs (' ' :: (serialize v ++ rbraceC :: rest)) =
          serialize v ++ rbraceC :: rest := by
        rw [show (' ' :: (serialize v ++ rbraceC :: rest)) =
          [' '] ++ (serialize v ++ rbraceC :: rest) by simp,
          skipWs_ws_append [' '] (by intro c hc; simp at hc; subst hc; decide),
          skipWs_serialize]
      simp only [parseMembersWith, hskip]
      simp only [if_true, hstr,
        skipWs_cons_of_not_ws _ (show isWsC ':' = false by decide),
        hskip2, hv,
        skipWs_cons_of_not_ws _ (show isWsC rbraceC = false by decide)]
      rw [if_neg (by decide)]
  | cons kv2 kvs ih =>
    intro kv sp rest fuel hpv hsp hfuel
    obtain ⟨k, v⟩ := kv
    match fuel, hfuel with
    | fuel + 1, hfuel =>
      have hskip : skipWs (sp ++ (serMembers (k, v) (kv2 :: kvs) ++ rbraceC :: rest)) =
          quoteC :: (escapeStr k ++ quoteC :: (':' :: ' ' :: (serialize v ++
            ',' :: ' ' :: (serMembers kv2 kvs ++ rbraceC :: rest)))) := by
        rw [serMembers, skipWs_ws_append sp hsp]
        have ha : (serStr k ++ ':' :: ' ' :: serialize v ++
            ',' :: ' ' :: serMembers kv2 kvs) ++ rbraceC :: rest =
            quoteC :: (escapeStr k ++ quoteC :: (':' :: ' ' :: (serialize v ++
              ',' :: ' ' :: (serMembers kv2 kvs ++ rbraceC :: rest)))) := by
          simp [serStr]
        rw [ha, skipWs_cons_of_not_ws _ (show isWsC quoteC = false by decide)]
      have hstr := parseStringRest_escapeStr k
        ((escapeStr k ++ quoteC :: (':' :: ' ' :: (serialize v ++
          ',' :: ' ' :: (serMembers kv2 kvs ++ rbraceC :: rest)))).length + 1)
        (':' :: ' ' :: (serialize v ++
          ',' :: ' ' :: (serMembers kv2 kvs ++ rbraceC :: rest)))
        (by
          have := length_le_escapeStr k
          simp only [List.length_append, List.length_cons]
          omega)
      have hv : pv (serialize v ++
          ',' :: ' ' :: (serMembers kv2 kvs ++ rbraceC :: rest)) =
          some (v, ',' :: ' ' :: (serMembers kv2 kvs ++ rbraceC :: rest)) :=
        hpv (k, v) (by simp)
          (',' :: ' ' :: (serMembers kv2 kvs ++ rbraceC :: rest))
          (headNotDigit_comma _)
      have hrec := ih kv2 [' '] rest fuel
        (fun z hz r2 hr2 => hpv z (by simp at hz ⊢; tauto) r2 hr2)
        (fun c hc => by simp at hc; subst hc; decide)
        (by simp at hfuel ⊢; omega)
      have hskip2 : skipWs (' ' :: (serialize v ++
          ',' :: ' ' :: (serMembers kv2 kvs ++ rbraceC :: rest))) =
          serialize v ++ ',' :: ' ' :: (serMembers kv2 kvs ++ rbraceC :: rest) := by
        rw [show (' ' :: (serialize v ++
            ',' :: ' ' :: (serMembers kv2 kvs ++ rbraceC :: rest))) =
          [' '] ++ (serialize v ++
            ',' :: ' ' :: (serMembers kv2 kvs ++ rbraceC :: rest)) by simp,
          skipWs_ws_append [' '] (by intro c hc; simp at hc; subst hc; decide),
          skipWs_serialize]
      simp only [parseMembersWith, hskip]
      simp only [if_true, hstr,
        skipWs_cons_of_not_ws _ (show isWsC ':' = false by decide),
        hskip2, hv,
        skipWs_cons_of_not_ws _ (show isWsC ',' = false by decide)]
      simp only [List.singleton_append] at hrec
      simp only [if_true, hrec]

theorem serMembers_head (kv : List Char × Json) (kvs : List (List Char × Json)) :
    ∃ t, serMembers kv kvs = quoteC :: t := by
  obtain ⟨k, v⟩ := kv
  cases kvs with
  | nil => exact ⟨escapeStr k ++ quoteC :: (':' :: ' ' :: serialize v),
      by rw [serMembers]; simp [serStr]⟩
  | cons kv2 kvs => exact ⟨escapeStr k ++ quoteC :: (':' :: ' ' :: (serialize v ++
      ',' :: ' ' :: serMembers kv2 kvs)), by rw [serMembers]; simp [serStr]⟩

/-- The value parser undoes the serializer, given fuel at least the value's
nesting depth and a continuation that does not begin with a digit. -/
theorem parseValue_serialize :
    ∀ (fuel : Nat) (j : Json) (rest : List Char), depth j ≤ fuel →
      HeadNotDigit rest →
      parseValue fuel (serialize j ++ rest) = some (j, rest) := by
  intro fuel
  induction fuel with
  | zero =>
    intro j rest hdep _
    have := depth_pos j
    omega
  | succ fuel ih =>
    intro j rest hdep hrest
    cases j with
    | null =>
      have heq : serialize Json.null ++ rest = 'n' :: 'u' :: 'l' :: 'l' :: rest := by
        simp only [serialize]
        rfl
      rw [heq]
      rfl
    | bool b =>
      cases b with
      | true =>
        have heq : serialize (Json.bool true) ++ rest =
            't' :: 'r' :: 'u' :: 'e' :: rest := by
          simp only [serialize]
          rfl
        rw [heq]
        rfl
      | false =>
        have heq : serialize (Json.bool false) ++ rest =
            'f' :: 'a' :: 'l' :: 's' :: 'e' :: rest := by
          simp only [serialize]
          rfl
        rw [heq]
        rfl
    | num k =>
      by_cases hk : k < 0
      · have hne := serNat_ne_nil k.natAbs
        cases hs : serNat k.natAbs with
        | nil => exact absurd hs hne
        | cons d ds =>
          have heq : serialize (Json.num k) ++ rest = '-' :: (d :: (ds ++ rest)) := by
            simp [serialize, serInt, hk, hs]
          rw [heq]
          have hdig : d.isDigit = true :=
            serNat_all_digits k.natAbs d (by rw [hs]; simp)
          have hall : ∀ c ∈ ds, c.isDigit = true := fun c hc =>
            serNat_all_digits k.natAbs c (by rw [hs]; simp [hc])
          have hds := parseDigits_spec ds rest (d.toNat - 48) hall hrest
          have hval : foldValDigits (d.toNat - 48) ds = k.natAbs := by
            have h0 := serNat_val k.natAbs
            rw [hs] at h0
            simpa [foldValDigits, digitVal] using h0
          simp only [parseValue]
          rw [if_neg (by decide), if_neg (by decide), if_neg (by decide),
            if_neg (by decide), if_neg (by decide), if_neg (by decide)]
          simp only [if_true, hdig, if_pos, hds, hval]
          have hneg : (-(k.natAbs : Int)) = k := by omega
          rw [hneg]
      · have hne := serNat_ne_nil k.toNat
        cases hs : serNat k.toNat with
        | nil => exact absurd hs hne
        | cons d ds =>
          have heq : serialize (Json.num k) ++ rest = d :: (ds ++ rest) := by
            simp [serialize, serInt, hk, hs]
          rw [heq]
          have hdig : d.isDigit = true :=
            serNat_all_digits k.toNat d (by rw [hs]; simp)
          have hb : 48 ≤ d.toNat ∧ d.toNat ≤ 57 := by
            simp [Char.isDigit] at hdig
            exact ⟨hdig.1, hdig.2⟩
          have hall : ∀ c ∈ ds, c.isDigit = true := fun c hc =>
            serNat_all_digits k.toNat c (by rw [hs]; simp [hc])
          have hds := parseDigits_spec ds rest (d.toNat - 48) hall hrest
          have hval : foldValDigits (d.toNat - 48) ds = k.toNat := by
            have h0 := serNat_val k.toNat
            rw [hs] at h0
            simpa [foldValDigits, digitVal] using h0
          have h110 : ('n' : Char).toNat = 110 := rfl
          have h116 : ('t' : Char).toNat = 116 := rfl
          have h102 : ('f' : Char).toNat = 102 := rfl
          have h34 : quoteC.toNat = 34 := rfl
          have h91 : ('[' : Char).toNat = 91 := rfl
          have h123 : lbraceC.toNat = 123 := rfl
          have h45 : ('-' : Char).toNat = 45 := rfl
          simp only [parseValue]
          rw [if_neg (char_ne_of_toNat_ne (by omega)),
            if_neg (char_ne_of_toNat_ne (by omega)),
            if_neg (char_ne_of_toNat_ne (by omega)),
            if_neg (char_ne_of_toNat_ne (by omega)),
            if_neg (char_ne_of_toNat_ne (by omega)),
            if_neg (char_ne_of_toNat_ne (by omega)),
            if_neg (char_ne_of_toNat_ne (by omega)), if_pos hdig]
          simp only [hds, hval]
          have hpos : ((k.toNat : Int)) = k := by omega
          rw [hpos]
    | str s =>
      have heq : serialize (Json.str s) ++ rest =
          quoteC :: (escapeStr s ++ quoteC :: rest) := by
        simp [serialize, serStr]
      rw [heq]
      have hstr := parseStringRest_escapeStr s
        ((escapeStr s ++ quoteC :: rest).length + 1) rest
        (by
          have := length_le_escapeStr s
          simp only [List.length_append, List.length_cons]
          omega)
      simp only [parseValue]
      rw [if_neg (by decide), if_neg (by decide), if_neg (by decide)]
      simp only [if_true, hstr]
    | arr xs =>
      cases xs with
      | nil =>
        have heq : serialize (Json.arr []) ++ rest = '[' :: (']' :: rest) := by
          simp [serialize]
        rw [heq]
        simp only [parseValue]
        rw [if_neg (by decide), if_neg (by decide), if_neg (by decide),
          if_neg (by decide)]
        simp only [if_true,
          skipWs_cons_of_not_ws _ (show isWsC ']' = false by decide),
          List.head?_cons, List.tail_cons]
      | cons x xs =>
        have heq : serialize (Json.arr (x :: xs)) ++ rest =
            '[' :: (serItems x xs ++ ']' :: rest) := by
          simp [serialize]
        rw [heq]
        obtain ⟨t, ht⟩ := serItems_eq_append x xs
        have hskip : skipWs (serItems x xs ++ ']' :: rest) =
            serItems x xs ++ ']' :: rest := by
          rw [ht]
          have h2 := skipWs_serialize x (t ++ ']' :: rest)
          simpa [List.append_assoc] using h2
        obtain ⟨c0, cs0, hc0, hws0, hne0⟩ := serialize_head x
        have hhead : (serItems x xs ++ ']' :: rest).head? = some c0 := by
          rw [ht, hc0]; simp
        have hdep2 : depthList (x :: xs) ≤ fuel := by
          have h3 : depth (Json.arr (x :: xs)) = 1 + depthList (x :: xs) := by
            simp [depth]
          omega
        have hitems := parseItemsWith_spec (parseValue fuel) xs x [] rest
          ((serItems x xs ++ ']' :: rest).length + 1)
          (fun z hz r2 hr2 => ih z r2
            (le_trans (depth_le_depthList hz) hdep2) hr2)
          (by intro c hc; simp at hc)
          (by
            have h4 := serItems_length x xs
            simp only [List.length_append, List.length_cons] at *
            omega)
        simp only [List.nil_append] at hitems
        simp only [parseValue]
        rw [if_neg (by decide), if_neg (by decide), if_neg (by decide),
          if_neg (by decide)]
        simp only [if_true, hskip, hhead]
        rw [if_neg (by
          intro hsome
          rw [Option.some_inj] at hsome
          exact hne0 hsome), hitems]
    | obj kvs =>
      cases kvs with
      | nil =>
        have heq : serialize (Json.obj []) ++ rest = lbraceC :: (rbraceC :: rest) := by
          simp [serialize]
        rw [heq]
        simp only [parseValue]
        rw [if_neg (by decide), if_neg (by decide), if_neg (by decide),
          if_neg (by decide), if_neg (by decide)]
        simp only [if_true,
          skipWs_cons_of_not_ws _ (show isWsC rbraceC = false by decide),
          List.head?_cons, List.tail_cons]
      | cons kv kvs =>
        have heq : serialize (Json.obj (kv :: kvs)) ++ rest =
            lbraceC :: (serMembers kv kvs ++ rbraceC :: rest) := by
          simp [serialize]
        rw [heq]
        obtain ⟨t, ht⟩ := serMembers_head kv kvs
        have hskip : skipWs (serMembers kv kvs ++ rbraceC :: rest) =
            serMembers kv kvs ++ rbraceC :: rest := by
          rw [ht, List.cons_append,
            skipWs_cons_of_not_ws _ (show isWsC quoteC = false by decide)]
        have hhead : (serMembers kv kvs ++ rbraceC :: rest).head? = some quoteC := by
          rw [ht]; simp
        have hdep2 : depthMembers (kv :: kvs) ≤ fuel := by
          have h3 : depth (Json.obj (kv :: kvs)) = 1 + depthMembers (kv :: kvs) := by
            simp [depth]
          omega
        have hmembers := parseMembersWith_spec (parseValue fuel) kvs kv [] rest
          ((serMembers kv kvs ++ rbraceC :: rest).length + 1)
          (fun z hz r2 hr2 => ih z.2 r2
            (le_trans (depth_le_depthMembers hz) hdep2) hr2)
          (by intro c hc; simp at hc)
          (by
            have h4 := serMembers_length kv kvs
            simp only [List.length_append, List.length_cons] at *
            omega)
        simp only [List.nil_append] at hmembers
        simp only [parseValue]
        rw [if_neg (by decide), if_neg (by decide), if_neg (by decide),
          if_neg (by decide), if_neg (by decide)]
        simp only [if_true, hskip, hhead]
        rw [if_neg (by
          intro hsome
          rw [Option.some_inj] at hsome
          revert hsome
          decide), hmembers]

theorem depthList_le_of (xs : List Json) (B : Nat)
    (h : ∀ z ∈ xs, depth z ≤ B) : depthList xs ≤ B := by
  induction xs with
  | nil => rw [depthList]; omega
  | cons x xs ih =>
    rw [depthList]
    exact max_le (h x (by simp)) (ih fun z hz => h z (by simp [hz]))

theorem depthMembers_le_of (kvs : List (List Char × Json)) (B : Nat)
    (h : ∀ z ∈ kvs, depth z.2 ≤ B) : depthMembers kvs ≤ B := by
  induction kvs with
  | nil => rw [depthMembers]; omega
  | cons kv kvs ih =>
    obtain ⟨k, v⟩ := kv
    rw [depthMembers]
    exact max_le (h (k, v) (by simp)) (ih fun z hz => h z (by simp [hz]))

theorem serialize_le_serItems (x : Json) (xs : List Json) :
    ∀ z ∈ x :: xs, (serialize z).length ≤ (serItems x xs).length := by
  induction xs generalizing x with
  | nil =>
    intro z hz
    simp only [List.mem_singleton] at hz
    subst hz
    rw [serItems]
  | cons y ys ih =>
    intro z hz
    rw [serItems]
    simp only [List.length_append, List.length_cons]
    rcases List.mem_cons.mp hz with h1 | h1
    · subst h1; omega
    · have := ih y z h1
      omega

theorem serialize_le_serMembers (kv : List Char × Json)
    (kvs : List (List Char × Json)) :
    ∀ z ∈ kv :: kvs, (serialize z.2).length ≤ (serMembers kv kvs).length := by
  induction kvs generalizing kv with
  | nil =>
    intro z hz
    obtain ⟨k, v⟩ := kv
    simp only [List.mem_singleton] at hz
    subst hz
    rw [serMembers]
    simp only [List.length_append, List.length_cons]
    omega
  | cons kv2 kvs ih =>
    intro z hz
    obtain ⟨k, v⟩ := kv
    rw [serMembers]
    simp only [List.length_append, List.length_cons]
    rcases List.mem_cons.mp hz with h1 | h1
    · subst h1
      show (serialize v).length ≤ _
      omega
    · have := ih kv2 z h1
      omega

theorem depth_le_length (j : Json) : depth j ≤ (serialize j).length := by
  suffices H : ∀ (n : Nat) (j : Json), sizeOf j ≤ n →
      depth j ≤ (serialize j).length from H (sizeOf j) j le_rfl
  intro n
  induction n with
  | zero =>
    intro j hj
    exfalso
    cases j <;> simp_all
  | succ n ih =>
    intro j hj
    cases j with
    | null =>
      simp only [depth, serialize]
      decide
    | bool b =>
      cases b <;> simp only [depth, serialize] <;> decide
    | num k =>
      have h1 := serialize_length_pos (Json.num k)
      have h2 : depth (Json.num k) = 1 := by simp [depth]
      omega
    | str s =>
      have h1 := serialize_length_pos (Json.str s)
      have h2 : depth (Json.str s) = 1 := by simp [depth]
      omega
    | arr xs =>
      cases xs with
      | nil =>
        have h2 : depth (Json.arr []) = 1 := by simp [depth, depthList]
        have h3 : serialize (Json.arr []) = ['[', ']'] := by simp [serialize]
        rw [h2, h3]
        simp
      | cons x xs =>
        have hsz : ∀ z ∈ x :: xs, sizeOf z ≤ n := by
          intro z hz
          have h1 := List.sizeOf_lt_of_mem hz
          have h2 : sizeOf (Json.arr (x :: xs)) = 1 + sizeOf (x :: xs) := by simp
          omega
        have hlist : depthList (x :: xs) ≤ (serItems x xs).length :=
          depthList_le_of _ _ (fun z hz =>
            le_trans (ih z (hsz z hz)) (serialize_le_serItems x xs z hz))
        have h3 : serialize (Json.arr (x :: xs)) =
            '[' :: (serItems x xs ++ [']']) := by simp [serialize]
        have h4 : depth (Json.arr (x :: xs)) = 1 + depthList (x :: xs) := by
          simp [depth]
        rw [h3, h4]
        simp only [List.length_cons, List.length_append]
        simp
        omega
    | obj kvs =>
      cases kvs with
      | nil =>
        have h2 : depth (Json.obj []) = 1 := by simp [depth, depthMembers]
        have h3 : serialize (Json.obj []) = [lbraceC, rbraceC] := by
          simp [serialize]
        rw [h2, h3]
        simp
      | cons kv kvs =>
        have hsz : ∀ z ∈ kv :: kvs, sizeOf z.2 ≤ n := by
          intro z hz
          have h1 := List.sizeOf_lt_of_mem hz
          have h2 : sizeOf (Json.obj (kv :: kvs)) = 1 + sizeOf (kv :: kvs) := by
            simp
          have h3 : sizeOf z.2 < sizeOf z := by
            obtain ⟨a, b⟩ := z
            simp only [Prod.mk.sizeOf_spec]
            omega
          omega
        have hlist : depthMembers (kv :: kvs) ≤ (serMembers kv kvs).length :=
          depthMembers_le_of _ _ (fun z hz =>
            le_trans (ih z.2 (hsz z hz)) (serialize_le_serMembers kv kvs z hz))
        have h3 : serialize (Json.obj (kv :: kvs)) =
            lbraceC :: (serMembers kv kvs ++ [rbraceC]) := by simp [serialize]
        have h4 : depth (Json.obj (kv :: kvs)) =
            1 + depthMembers (kv :: kvs) := by simp [depth]
        rw [h3, h4]
        simp only [List.length_cons, List.length_append]
        simp
        omega

/-- `json.loads` undoes `json.dumps`. -/
theorem parseJson_serialize (j : Json) : parseJson (serialize j) = some j := by
  unfold parseJson
  have hskip : skipWs (serialize j) = serialize j := by
    have := skipWs_serialize j []
    simpa using this
  have hdep : depth j ≤ (serialize j).length + 1 := by
    have := depth_le_length j
    omega
  have hpv := parseValue_serialize ((serialize j).length + 1) j []
    hdep (by intro c hc; simp at hc)
  rw [hskip]
  simp only [List.append_nil] at hpv
  rw [hpv]
  simp [skipWs]

/-! ## Substring and split lemmas for the import-error classification -/

theorem splitOnChar_ne_nil (sep : Char) (l : List Char) : splitOnChar sep l ≠ [] := by
  induction l with
  | nil => simp [splitOnChar]
  | cons c r ih =>
    rw [splitOnChar]
    split_ifs
    · simp
    · cases hp : splitOnChar sep r with
      | nil => simp
      | cons p ps => simp

theorem splitOnChar_cons_sep (sep : Char) (b : List Char) :
    splitOnChar sep (sep :: b) = [] :: splitOnChar sep b := by
  rw [splitOnChar, if_pos rfl]

theorem splitOnChar_append (sep : Char) (a : List Char) (ha : sep ∉ a)
    (b : List Char) :
    ∃ p ps, splitOnChar sep b = p :: ps ∧
      splitOnChar sep (a ++ b) = (a ++ p) :: ps := by
  induction a with
  | nil =>
    have hne := splitOnChar_ne_nil sep b
    cases hp : splitOnChar sep b with
    | nil => exact absurd hp hne
    | cons p ps => exact ⟨p, ps, rfl, by simp [hp]⟩
  | cons c r ih =>
    have hc : c ≠ sep := fun heq => ha (by simp [heq])
    obtain ⟨p, ps, hp, hap⟩ := ih (fun hm => ha (by simp [hm]))
    refine ⟨p, ps, hp, ?_⟩
    rw [List.cons_append, splitOnChar, if_neg hc, hap]
    rfl

theorem splitOnChar_quoted (sep : Char) (pre name : List Char)
    (hpre : sep ∉ pre) (hname : sep ∉ name) :
    splitOnChar sep (pre ++ sep :: (name ++ [sep])) = [pre, name, []] := by
  have h1 : splitOnChar sep [sep] = [[], []] := by
    rw [show ([sep] : List Char) = sep :: [] from rfl, splitOnChar_cons_sep]
    rfl
  obtain ⟨q, qs, hq, haq⟩ := splitOnChar_append sep name hname [sep]
  rw [h1] at hq
  have hq2 : q = [] ∧ qs = [[]] := by
    have := hq.symm
    simp at this
    exact ⟨this.1, this.2⟩
  obtain ⟨rfl, rfl⟩ := hq2
  simp only [List.append_nil] at haq
  obtain ⟨p, ps, hp, hap⟩ := splitOnChar_append sep pre hpre
    (sep :: (name ++ [sep]))
  rw [splitOnChar_cons_sep, haq] at hp
  have hp2 : p = [] ∧ ps = [name, []] := by
    have := hp.symm
    simp at this
    exact ⟨this.1, this.2⟩
  obtain ⟨rfl, rfl⟩ := hp2
  simp only [List.append_nil] at hap
  exact hap

theorem hasSubstring_prefix (a b : List Char) : hasSubstring (a ++ b) a = true := by
  unfold hasSubstring
  rw [List.any_eq_true]
  refine ⟨a ++ b, ?_, ?_⟩
  · rw [List.mem_tails]
  · rw [List.isPrefixOf_iff_prefix]
    exact List.prefix_append a b

theorem no_module_named_msg_eq (modname : List Char) :
    no_module_named_msg modname =
      "No module named".data ++ (' ' :: squoteC :: (modname ++ [squoteC])) := rfl

theorem hasSubstring_no_module (modname : List Char) :
    hasSubstring (no_module_named_msg modname) "No module named".data = true := by
  rw [no_module_named_msg_eq]
  exact hasSubstring_prefix _ _

theorem missing_module_of_msg (modname : List Char) (h : squoteC ∉ modname) :
    missing_module_of (no_module_named_msg modname) = modname := by
  have hmem : squoteC ∈ no_module_named_msg modname := by
    unfold no_module_named_msg
    simp
  have hsplit := splitOnChar_quoted squoteC "No module named ".data modname
    (by decide) h
  unfold missing_module_of
  rw [if_pos (by simpa [List.elem_iff] using hmem)]
  rw [show no_module_named_msg modname =
    "No module named ".data ++ squoteC :: (modname ++ [squoteC]) from rfl]
  rw [hsplit]
  rfl

/-! ## Claim theorems -/

/-- C1: the Runner's inbound dispatch (`handle_response`, runner.py lines
195-238) has no `http_response` branch: an inbound `http_response` falls into
the final `else` (log "Unknown response type" only), leaves the runner state
— including the session's pending table — unchanged, and sends nothing; so a
matching pending call is never fulfilled through the dispatch, even though
`ClientSession.handle_http_response` (which the runner never invokes despite
its docstring "called by runner") would pop and fulfil the pending future. -/
theorem C1_http_response_never_dispatched
    (imports : List Char → ImportOutcome) (st : RunnerState) (rd : ResponseData)
    (rid : List Char) (hrid : rd.request_id = some rid)
    (hpend : List.lookup rid st.session = some FutureState.pending) :
    handle_response imports st (InMsg.http_response rd) = (st, []) ∧
    (handle_http_response st.session rd).2 = some rd := by
  constructor
  · rfl
  · simp only [handle_http_response, hrid, hpend]

theorem C1_http_response_never_dispatched_witness :
    handle_response (fun _ => ImportOutcome.import_error [])
      ⟨true, [("r1".data, FutureState.pending)]⟩
      (InMsg.http_response ⟨some "r1".data, 200, []⟩) =
      (⟨true, [("r1".data, FutureState.pending)]⟩, []) ∧
    (handle_http_response [("r1".data, FutureState.pending)]
      ⟨some "r1".data, 200, []⟩).2 = some ⟨some "r1".data, 200, []⟩ :=
  C1_http_response_never_dispatched (fun _ => ImportOutcome.import_error [])
    ⟨true, [("r1".data, FutureState.pending)]⟩ ⟨some "r1".data, 200, []⟩
    "r1".data rfl rfl

/-- C2: for every JSON-representable message value `m`, the bytes written by
`send_message` (serialized text plus one newline) are read back by
`recv_response` as exactly `m` — `parse(serialize(m)) == m` — and the framed
message occupies exactly one newline-terminated line: it contains exactly one
newline and that newline is its final byte (the serializer escapes any
newline occurring inside string values). -/
theorem C2_framing_roundtrip (m : Json) :
    recv_response (send_message m) = RecvOutcome.got m ∧
    (send_message m).count nlC = 1 ∧
    (send_message m).getLast? = some nlC := by
  refine ⟨?_, ?_, ?_⟩
  · unfold recv_response send_message
    have hne : ((serialize m ++ [nlC]).isEmpty = true) = False := by
      have := serialize_ne_nil m
      cases hs : serialize m with
      | nil => exact absurd hs this
      | cons c cs => simp
    rw [if_neg (by simp [hne])]
    have htake : (serialize m ++ [nlC]).takeWhile (fun c => c ≠ nlC) =
        serialize m := by
      have := takeWhile_until_nl (serialize m) (nl_not_mem_serialize m) []
      simpa using this
    rw [htake]
    have hstrip : pyStrip (serialize m) = serialize m := by
      obtain ⟨c, cs, hc, hws, -⟩ := serialize_head m
      obtain ⟨d, hd, hdws⟩ := serialize_last m
      apply pyStrip_of_clean
      · intro e he
        rw [hc, List.head?_cons, Option.some_inj] at he
        rw [← he]
        exact hws
      · intro e he
        rw [hd, Option.some_inj] at he
        rw [← he]
        exact hdws
    rw [hstrip, parseJson_serialize]
  · unfold send_message
    rw [List.count_append, List.count_eq_zero.mpr (nl_not_mem_serialize m)]
    simp
  · unfold send_message
    exact List.getLast?_concat _

/-- C3 counterexample: with `timeout = 30` seconds, a response arriving 32
seconds after the call — i.e. after the claimed deadline `now + T` — still
fulfils the call instead of failing with `Timeout`, and the call waits 32 s,
beyond the claimed deadline: `_send_request` actually waits with
`asyncio.wait_for(future, timeout=timeout + 5)`. -/
theorem C3_wait_exceeds_timeout_counterexample :
    (send_request [] "r1".data 30 (some 32)).outcome = WaitOutcome.fulfilled ∧
    (30 : ℚ) < 32 ∧
    30 < (send_request [] "r1".data 30 (some 32)).wait_time := by
  refine ⟨?_, by norm_num, ?_⟩
  · simp only [send_request]
    rw [if_pos (by norm_num)]
  · simp only [send_request]
    rw [if_pos (by norm_num)]
    norm_num

/-- C3 (amended): `_send_request` with timeout `T` registers the pending call,
sends `http_request` with `timeout_ms = int(T * 1000)`, and waits at most
`T + 5` seconds (never hangs); if no matching response arrives within `T + 5`
it fails with `asyncio.TimeoutError` and the pending entry is removed from
the table. -/
theorem C3_wait_deadline_amended (pending : PendingTable) (rid : List Char)
    (T : ℚ) (arrival : Option ℚ)
    (hlate : ∀ t, arrival = some t → T + 5 ≤ t) :
    (send_request pending rid T arrival).pending_after_register =
      (rid, FutureState.pending) :: pending ∧
    (send_request pending rid T arrival).msg_timeout_ms = pyInt (T * 1000) ∧
    (∀ arr2, (send_request pending rid T arr2).wait_time ≤ T + 5) ∧
    (send_request pending rid T arrival).outcome = WaitOutcome.timeout_error ∧
    (send_request pending rid T arrival).pending_final =
      List.eraseP (fun p => p.1 == rid) ((rid, FutureState.pending) :: pending) := by
  refine ⟨?_, ?_, ?_, ?_, ?_⟩
  · cases arrival with
    | none => rfl
    | some t =>
      simp only [send_request]
      split_ifs <;> rfl
  · cases arrival with
    | none => rfl
    | some t =>
      simp only [send_request]
      split_ifs <;> rfl
  · intro arr2
    cases arr2 with
    | none =>
      simp only [send_request]
      exact le_refl _
    | some t =>
      simp only [send_request]
      split_ifs with hlt
      · exact le_of_lt hlt
      · exact le_refl _
  · cases arrival with
    | none => rfl
    | some t =>
      have ht := hlate t rfl
      simp only [send_request]
      rw [if_neg (by linarith)]
  · cases arrival with
    | none => rfl
    | some t =>
      simp only [send_request]
      split_ifs <;> rfl

theorem C3_wait_deadline_amended_witness :
    (send_request [] "r1".data 30 none).outcome = WaitOutcome.timeout_error ∧
    (send_request [] "r1".data 30 none).pending_after_register =
      [("r1".data, FutureState.pending)] ∧
    (send_request [] "r1".data 30 none).msg_timeout_ms = pyInt (30 * 1000) := by
  have h := C3_wait_deadline_amended [] "r1".data 30 none
    (by intro t ht; simp at ht)
  exact ⟨h.2.2.2.1, h.1, h.2.1⟩

/-- C4: when importing `homeassistant.components.<domain>` raises
`ModuleNotFoundError` naming the integration module itself, the runner replies
`setup_failed` with `error_type: "integration_not_found"`; when it names some
other (supporting) module, the reply is `error_type: "missing_dependency"`
with `missing_package` naming that module; both paths return a normal reply
(one message) rather than escaping the dispatch. -/
theorem C4_import_failure_classification (domain entry_id pkg : List Char)
    (imports : List Char → ImportOutcome)
    (hdq : squoteC ∉ domain) (hpq : squoteC ∉ pkg) :
    (imports (module_name_of domain) =
        ImportOutcome.module_not_found_error
          (no_module_named_msg (module_name_of domain)) →
      handle_setup_integration imports domain entry_id =
        [OutMsg.setup_failed entry_id
          ("Integration ".data ++ [squoteC] ++ domain ++ [squoteC] ++
            " not found in Home Assistant source".data)
          "integration_not_found".data (some (module_name_of domain))]) ∧
    (imports (module_name_of domain) =
        ImportOutcome.module_not_found_error (no_module_named_msg pkg) →
      pkg ≠ module_name_of domain → pkg ≠ domain →
      handle_setup_integration imports domain entry_id =
        [OutMsg.setup_failed entry_id
          ("Integration ".data ++ [squoteC] ++ domain ++ [squoteC] ++
            " requires Python package ".data ++ [squoteC] ++ pkg ++ [squoteC] ++
            " which is not installed".data)
          "missing_dependency".data (some pkg)]) := by
  have hmq : squoteC ∉ module_name_of domain := by
    intro hm
    unfold module_name_of at hm
    rw [List.mem_append] at hm
    rcases hm with hm | hm
    · revert hm; decide
    · exact hdq hm
  constructor
  · intro himp
    simp only [handle_setup_integration, setup_integration_body, himp]
    rw [if_pos (hasSubstring_no_module (module_name_of domain))]
    simp only [missing_module_of_msg (module_name_of domain) hmq]
    rw [if_pos (Or.inl trivial)]
  · intro himp hne1 hne2
    simp only [handle_setup_integration, setup_integration_body, himp]
    rw [if_pos (hasSubstring_no_module pkg)]
    simp only [missing_module_of_msg pkg hpq]
    rw [if_neg (by
      intro hor
      rcases hor with h | h
      · exact hne1 h
      · exact hne2 h)]

theorem C4_import_failure_classification_witness :
    squoteC ∉ "weather".data ∧
    (handle_setup_integration
        (fun _ => ImportOutcome.module_not_found_error
          (no_module_named_msg (module_name_of "weather".data)))
        "weather".data "e1".data =
      [OutMsg.setup_failed "e1".data
        ("Integration ".data ++ [squoteC] ++ "weather".data ++ [squoteC] ++
          " not found in Home Assistant source".data)
        "integration_not_found".data (some (module_name_of "weather".data))]) ∧
    (handle_setup_integration
        (fun _ => ImportOutcome.module_not_found_error
          (no_module_named_msg "requests".data))
        "weather".data "e1".data =
      [OutMsg.setup_failed "e1".data
        ("Integration ".data ++ [squoteC] ++ "weather".data ++ [squoteC] ++
          " requires Python package ".data ++ [squoteC] ++ "requests".data ++
          [squoteC] ++ " which is not installed".data)
        "missing_dependency".data (some "requests".data)]) := by
  refine ⟨by decide, ?_, ?_⟩
  · exact (C4_import_failure_classification "weather".data "e1".data
      "requests".data _ (by decide) (by decide)).1 rfl
  · exact (C4_import_failure_classification "weather".data "e1".data
      "requests".data _ (by decide) (by decide)).2 rfl (by decide) (by decide)

/-- C5: even when the integration module sets up successfully after forwarding
platforms (which `async_forward_entry_setups` duly records on the entry), the
Runner's `setup_complete` reply carries `platforms: []` — runner.py line 183
hardcodes the empty list with a TODO — so the reply never lists the forwarded
platforms. -/
theorem C5_setup_complete_platforms_empty (domain entry_id : List Char)
    (forwarded : List (List Char)) (imports : List Char → ImportOutcome)
    (himp : imports (module_name_of domain) =
      ImportOutcome.success ⟨true, SetupOutcome.ok forwarded⟩) :
    handle_setup_integration imports domain entry_id =
      [OutMsg.setup_complete entry_id []] ∧
    forward_entry_setups [] forwarded = forwarded := by
  constructor
  · simp only [handle_setup_integration, setup_integration_body, himp]
    rfl
  · simp [forward_entry_setups]

theorem C5_setup_complete_platforms_empty_witness :
    handle_setup_integration
      (fun _ => ImportOutcome.success ⟨true, SetupOutcome.ok ["weather".data]⟩)
      "weather".data "e1".data = [OutMsg.setup_complete "e1".data []] ∧
    forward_entry_setups [] ["weather".data] = ["weather".data] :=
  C5_setup_complete_platforms_empty "weather".data "e1".data ["weather".data]
    (fun _ => ImportOutcome.success ⟨true, SetupOutcome.ok ["weather".data]⟩) rfl

/-- C6: the `trigger_update` branch of `handle_response` (runner.py lines
215-224) replies `update_complete{success: true}` unconditionally: it never
looks up a coordinator for the timer id and never calls `refresh()` — the
runner state (which would hold any coordinator/session state) is returned
unchanged and the success flag is the constant `true`, whatever the outcome
of any coordinator's fetch would have been. -/
theorem C6_trigger_update_unconditional_success
    (imports : List Char → ImportOutcome) (st : RunnerState)
    (timer_id entry_id : List Char) :
    handle_response imports st (InMsg.trigger_update timer_id entry_id) =
      (st, [OutMsg.update_complete timer_id true]) := rfl

/-- C7: when the underlying fetch fails, `async_refresh`
(update_coordinator.py lines 87-105) leaves the stored data snapshot
unchanged, notifies no listener, records the failure
(`last_update_success = False`), raises `UpdateFailed` whose message carries
the coordinator's name and whose cause is the original error, and consumes
exactly one fetch (no internal retry). -/
theorem C7_failed_refresh_preserves_state {D : Type} (name : List Char)
    (st : CoordState D) (fetch : Nat → FetchResult D) (i : Nat) (e : List Char)
    (hf : fetch i = FetchResult.err e) :
    (async_refresh name st fetch i).state.data = st.data ∧
    (async_refresh name st fetch i).notified = [] ∧
    (async_refresh name st fetch i).state.last_update_success = false ∧
    (async_refresh name st fetch i).raised =
      some ⟨"Error fetching ".data ++ name ++ " data".data, e⟩ ∧
    (async_refresh name st fetch i).fetch_next = i + 1 := by
  simp [async_refresh, hf]

theorem C7_failed_refresh_preserves_state_witness :
    (async_refresh (D := Nat) "w".data ⟨some 5, true, [1, 2]⟩
      (fun _ => FetchResult.err "boom".data) 0).state.data = some 5 ∧
    (async_refresh (D := Nat) "w".data ⟨some 5, true, [1, 2]⟩
      (fun _ => FetchResult.err "boom".data) 0).notified = [] ∧
    (async_refresh (D := Nat) "w".data ⟨some 5, true, [1, 2]⟩
      (fun _ => FetchResult.err "boom".data) 0).state.last_update_success =
      false ∧
    (async_refresh (D := Nat) "w".data ⟨some 5, true, [1, 2]⟩
      (fun _ => FetchResult.err "boom".data) 0).raised =
      some ⟨"Error fetching ".data ++ "w".data ++ " data".data, "boom".data⟩ ∧
    (async_refresh (D := Nat) "w".data ⟨some 5, true, [1, 2]⟩
      (fun _ => FetchResult.err "boom".data) 0).fetch_next = 1 :=
  C7_failed_refresh_preserves_state "w".data ⟨some 5, true, [1, 2]⟩
    (fun _ => FetchResult.err "boom".data) 0 "boom".data rfl

/-- C8: on the `hass` object the runner actually builds (`_send_message`
attached, `_coordinators` never created — core.py lines 89-100 and runner.py
lines 147-151), a successful first refresh of a coordinator with a configured
1800-second interval crashes with `AttributeError` at the registration line
(update_coordinator.py line 77) before any `schedule_update` is sent: no
message goes out and no coordinator is recorded. -/
theorem C8_first_refresh_attribute_error :
    (async_config_entry_first_refresh (D := Nat)
      ⟨"weather".data, "weather_abc12345".data, some 1800⟩ 0 hass_from_runner
      ⟨none, true, []⟩ (fun _ => FetchResult.ok 7) 0).sent = [] ∧
    (async_config_entry_first_refresh (D := Nat)
      ⟨"weather".data, "weather_abc12345".data, some 1800⟩ 0 hass_from_runner
      ⟨none, true, []⟩ (fun _ => FetchResult.ok 7) 0).raised =
      some (FirstRefreshErr.attribute_error coordinators_attr_error) ∧
    (async_config_entry_first_refresh (D := Nat)
      ⟨"weather".data, "weather_abc12345".data, some 1800⟩ 0 hass_from_runner
      ⟨none, true, []⟩ (fun _ => FetchResult.ok 7) 0).hass.coordinators =
      none :=
  ⟨rfl, rfl, rfl⟩

/-- C9 counterexample: with two outbound calls pending, a zero-length read
terminates the loop gracefully (`eof_exit`, transport closed) but the two
pending calls are NOT failed with any `ChannelClosed` error — no such error
exists anywhere in the code — they are simply left pending, untouched. -/
theorem C9_pending_not_failed_counterexample :
    run_loop (fun _ => ImportOutcome.import_error [])
      ⟨true, [("r1".data, FutureState.pending), ("r2".data, FutureState.pending)]⟩
      [ChanEvent.eof] =
      ⟨⟨true, [("r1".data, FutureState.pending),
        ("r2".data, FutureState.pending)]⟩, [], LoopExit.eof_exit, true⟩ ∧
    List.lookup "r1".data (run_loop (fun _ => ImportOutcome.import_error [])
      ⟨true, [("r1".data, FutureState.pending), ("r2".data, FutureState.pending)]⟩
      [ChanEvent.eof]).final.session = some FutureState.pending ∧
    List.lookup "r2".data (run_loop (fun _ => ImportOutcome.import_error [])
      ⟨true, [("r1".data, FutureState.pending), ("r2".data, FutureState.pending)]⟩
      [ChanEvent.eof]).final.session = some FutureState.pending :=
  ⟨rfl, rfl, rfl⟩

/-- C9 (amended): end-of-channel is treated as normal termination — the
`EOFError` from the zero-length read is caught, the loop exits without
raising, and the transport is closed — but the N pending calls are not failed
by the runner: the session's pending table is left exactly as it was (each
suspended call is left to its own wait timeout or to event-loop teardown). -/
theorem C9_eof_graceful_amended (imports : List Char → ImportOutcome)
    (st : RunnerState) (hrun : st.running = true) :
    run_loop imports st [ChanEvent.eof] = ⟨st, [], LoopExit.eof_exit, true⟩ := by
  simp only [run_loop, hrun]
  rfl

theorem C9_eof_graceful_amended_witness :
    run_loop (fun _ => ImportOutcome.import_error [])
      ⟨true, [("r1".data, FutureState.pending)]⟩ [ChanEvent.eof] =
      ⟨⟨true, [("r1".data, FutureState.pending)]⟩, [], LoopExit.eof_exit, true⟩ :=
  C9_eof_graceful_amended (fun _ => ImportOutcome.import_error [])
    ⟨true, [("r1".data, FutureState.pending)]⟩ rfl

/-- C10: `async_get_clientsession` creates the session on first use, caches it
in `hass.data`, and every subsequent call returns the identical cached session
object without modifying the state — so all outbound calls issued through one
`hass` handle share a single pending-request table. -/
theorem C10_clientsession_cached (h : HassData) :
    async_get_clientsession (async_get_clientsession h).1 =
      ((async_get_clientsession h).1, (async_get_clientsession h).2) ∧
    (async_get_clientsession h).1.aiohttp_session =
      some (async_get_clientsession h).2 := by
  cases hEq : h.aiohttp_session with
  | none => simp [async_get_clientsession, hEq]
  | some s => simp [async_get_clientsession, hEq]

end Hearthd
